import Mathlib

/-!
Verification development for the search-engine core:
the persistent key-value store (`src/kv_database/database.rs`),
the index builder (`src/inverted_index/disk_inverted_index.rs`),
the tokenizer (`src/tokenizer.rs`) and the query engine
(`src/search/engine.rs`).

Modelling conventions.
* The KV store's two on-disk files are modelled byte-for-byte: the data
  file is a `List Nat` of bytes and the manifest is an association list
  from keys to `SeekPos` byte ranges.  The binary codec (`bincode`) is an
  external library; it enters the model as a pair of abstract functions
  `ser`/`deser` together with the round-trip property that is its
  documented contract.
* Rust `HashMap` batches are modelled as association lists; the unique-key
  property of a `HashMap` becomes a `Nodup` hypothesis on the key column.
* `f64` is modelled two ways, matching what each claim needs: for the
  TF-IDF score formula (which uses `log10`) it is modelled by `ℝ`; for the
  query engine (which only adds and compares scores, and must handle NaN)
  it is modelled by an executable carrier `F64` = rationals plus a NaN
  point, with `partial_cmp` returning `none` on NaN exactly as in Rust.
* Fallible Rust code (`Result`) is modelled with `Except`/`Option`.
-/

/-- Mirror of `error.rs`: `Generic(String)`, `IO`, `SerializeDeserialize`,
`SerdeJson` (the `IO` and codec payloads are external and dropped). -/
inductive KVError where
  | generic (msg : String)
  | ioError
  | serError
  | jsonError
deriving DecidableEq, Repr

/-- First-match lookup in an association list: the behaviour of
`HashMap::get` once a hash map is represented by its entry list. -/
def lookupKV {K V : Type} [DecidableEq K] : List (K × V) → K → Option V
  | [], _ => none
  | (k, v) :: rest, key => if k = key then some v else lookupKV rest key

namespace KVDatabase

/-- `SeekPos` from `seek_pos_map.rs`: `{ pos: u64, len: u64 }`. -/
structure SeekPos where
  pos : Nat
  len : Nat
deriving DecidableEq, Repr

/-- The state of one `KVDatabase`: the contents of the data file and the
in-memory `seek_pos_map` (which the code keeps in sync with the manifest
file after every operation). -/
structure DiskState (K : Type) where
  data : List Nat
  manifest : List (K × SeekPos)

/-- `BufReader::seek` + `read_exact`: read `len` bytes at offset `pos`;
`read_exact` fails (an `IO` error) when fewer than `len` bytes remain. -/
def readSlice (data : List Nat) (pos len : Nat) : Option (List Nat) :=
  if pos + len ≤ data.length then some ((data.drop pos).take len) else none

variable {K : Type} [DecidableEq K]

/-- `KVDatabase::new`: both files are created empty (the manifest file
holds the serialization of an empty map). -/
def newDisk : DiskState K := ⟨[], []⟩

/-- `KVDatabase::get`: look the key up in `seek_pos_map`; absent keys give
`none`; otherwise seek, read exactly `len` bytes and deserialize. -/
def get {V : Type} (deser : List Nat → Option V) (st : DiskState K) (k : K) :
    Except KVError (Option V) :=
  match lookupKV st.manifest k with
  | none => .ok none
  | some sp =>
    match readSlice st.data sp.pos sp.len with
    | none => .error .ioError
    | some bytes =>
      match deser bytes with
      | none => .error .serError
      | some v => .ok (some v)

/-- The copy loop shared by `insert` and `extend`: each retained old entry
is read from the old data file and rewritten at the current stream
position of the temp file.  `off` is that stream position; the function
returns the bytes written and the relocated manifest entries. -/
def copyOld (data : List Nat) : List (K × SeekPos) → Nat →
    Option (List Nat × List (K × SeekPos))
  | [], _ => some ([], [])
  | (k, sp) :: rest, off => do
    let blob ← readSlice data sp.pos sp.len
    let (dRest, mRest) ← copyOld data rest (off + sp.len)
    some (blob ++ dRest, (k, ⟨off, sp.len⟩) :: mRest)

/-- The batch loop of `insert`: serialize each batch value at the current
stream position. -/
def writeNewInsert {V : Type} (ser : V → List Nat) :
    List (K × V) → Nat → List Nat × List (K × SeekPos)
  | [], _ => ([], [])
  | (k, v) :: rest, off =>
    let blob := ser v
    let (dRest, mRest) := writeNewInsert ser rest (off + blob.length)
    (blob ++ dRest, (k, ⟨off, blob.length⟩) :: mRest)

/-- The batch loop of `extend`: when the key is already present the old
value is read back, deserialized and extended by appending (`Extend` on a
container), then the result is serialized at the current position. -/
def writeNewExtend {T : Type} (ser : List T → List Nat)
    (deser : List Nat → Option (List T)) (st : DiskState K) :
    List (K × List T) → Nat → Except KVError (List Nat × List (K × SeekPos))
  | [], _ => .ok ([], [])
  | (k, v) :: rest, off =>
    match lookupKV st.manifest k with
    | some sp =>
      match readSlice st.data sp.pos sp.len with
      | none => .error .ioError
      | some bytes =>
        match deser bytes with
        | none => .error .serError
        | some old =>
          let blob := ser (old ++ v)
          match writeNewExtend ser deser st rest (off + blob.length) with
          | .error e => .error e
          | .ok (dRest, mRest) => .ok (blob ++ dRest, (k, ⟨off, blob.length⟩) :: mRest)
    | none =>
      let blob := ser v
      match writeNewExtend ser deser st rest (off + blob.length) with
      | .error e => .error e
      | .ok (dRest, mRest) => .ok (blob ++ dRest, (k, ⟨off, blob.length⟩) :: mRest)

/-- `KVDatabase::insert`: no-op on an empty batch; otherwise copy every
old entry whose key is not in the batch, then append the batch values,
and atomically replace both files. -/
def insert {V : Type} (ser : V → List Nat) (st : DiskState K)
    (batch : List (K × V)) : Except KVError (DiskState K) :=
  if batch.isEmpty then .ok st else
  match copyOld st.data (st.manifest.filter fun p => (lookupKV batch p.1).isNone) 0 with
  | none => .error .ioError
  | some (d1, m1) =>
    let (d2, m2) := writeNewInsert ser batch d1.length
    .ok ⟨d1 ++ d2, m1 ++ m2⟩

/-- `KVDatabase::extend`: as `insert`, except that a key present in both
the store and the batch stores `old ++ new`. -/
def extend {T : Type} (ser : List T → List Nat)
    (deser : List Nat → Option (List T)) (st : DiskState K)
    (batch : List (K × List T)) : Except KVError (DiskState K) :=
  if batch.isEmpty then .ok st else
  match copyOld st.data (st.manifest.filter fun p => (lookupKV batch p.1).isNone) 0 with
  | none => .error .ioError
  | some (d1, m1) =>
    match writeNewExtend ser deser st batch d1.length with
    | .error e => .error e
    | .ok (d2, m2) => .ok ⟨d1 ++ d2, m1 ++ m2⟩

/-- The pair of files a store leaves on disk: the data file verbatim and
the manifest file, a `bincode` serialization of the seek-position map
(`serM` is that codec). -/
def storeFiles (serM : List (K × SeekPos) → List Nat) (st : DiskState K) :
    List Nat × List Nat :=
  (st.data, serM st.manifest)

/-- `KVDatabase::from`: open both files; the manifest file is read whole
and deserialized into the in-memory seek-position map. -/
def fromDisk (deserM : List Nat → Option (List (K × SeekPos)))
    (files : List Nat × List Nat) : Except KVError (DiskState K) :=
  match deserM files.2 with
  | none => .error .serError
  | some man => .ok ⟨files.1, man⟩

end KVDatabase

/-- The abstract key→value transition that `KVDatabase::extend` implements:
a key in the batch stores the old value (empty when absent) followed by
the batch value; other keys are untouched. -/
def extendMap {K T : Type} [DecidableEq K] (f : K → Option (List T))
    (batch : List (K × List T)) : K → Option (List T) :=
  fun k =>
    match lookupKV batch k with
    | some v => some ((f k).getD [] ++ v)
    | none => f k

/-- The abstract key→value transition that `KVDatabase::insert` implements:
batch keys override, other keys are untouched. -/
def insertMap {K V : Type} [DecidableEq K] (f : K → Option V)
    (batch : List (K × V)) : K → Option V :=
  fun k =>
    match lookupKV batch k with
    | some v => some v
    | none => f k

namespace KVDatabase

/-- The consistency invariant tying a store state to the abstract map it
represents: manifest keys are unique, every mapped key's manifest entry
addresses bytes that deserialize to its value, and unmapped keys are
absent from the manifest. -/
structure StoreInv {K V : Type} [DecidableEq K] (deser : List Nat → Option V)
    (st : DiskState K) (f : K → Option V) : Prop where
  nodup : (st.manifest.map Prod.fst).Nodup
  sound : ∀ k v, f k = some v → ∃ sp b, lookupKV st.manifest k = some sp ∧
      readSlice st.data sp.pos sp.len = some b ∧ deser b = some v
  complete : ∀ k, f k = none → lookupKV st.manifest k = none

end KVDatabase

/-- A concrete executable length-prefixed codec for `List Nat` values,
standing in for `bincode` when a claim theorem is instantiated on a
concrete store. -/
def exSer (l : List Nat) : List Nat := l.length :: l

/-- Inverse of `exSer`. -/
def exDeser : List Nat → Option (List Nat)
  | [] => none
  | n :: rest => if rest.length = n then some rest else none

/-- A concrete executable codec for single `Nat` values. -/
def exSerNat (n : Nat) : List Nat := [n]

/-- Inverse of `exSerNat`. -/
def exDeserNat : List Nat → Option Nat
  | [n] => some n
  | _ => none

/-- A concrete executable codec for seek-position manifests over `Nat`
keys (three bytes per entry). -/
def exSerMan : List (Nat × KVDatabase.SeekPos) → List Nat
  | [] => []
  | (k, sp) :: rest => k :: sp.pos :: sp.len :: exSerMan rest

/-- Inverse of `exSerMan`. -/
def exDeserMan : List Nat → Option (List (Nat × KVDatabase.SeekPos))
  | [] => some []
  | k :: p :: l :: rest => (exDeserMan rest).map (fun m => (k, ⟨p, l⟩) :: m)
  | _ => none

/-! Tokenizer (`src/tokenizer.rs`) and the token streams used by the
index builder (`src/inverted_index/disk_inverted_index.rs`).  The Porter
English stemmer is an external library and is a parameter `stem`
throughout; the BERT word-piece tokenizer used by `create_index` for body
text is likewise a parameter where it is needed. -/

/-- A regex `\w` word character; the crawled inputs exercised here are
ASCII, where `\w` is exactly alphanumeric or underscore. -/
def wordChar (c : Char) : Bool := c.isAlphanum || c = '_'

/-- `str::to_lowercase`, character by character (exact on ASCII). -/
def toLowerStr (s : String) : String := String.mk (s.toList.map Char.toLower)

/-- `str::trim`: strip leading and trailing whitespace. -/
def trimStr (s : String) : String :=
  String.mk
    (((s.toList.dropWhile Char.isWhitespace).reverse.dropWhile
        Char.isWhitespace).reverse)

/-- Maximal runs of characters satisfying `p`; non-matching characters
are discarded and never produce empty runs. -/
def runsBy (p : Char → Bool) : List Char → List Char → List (List Char)
  | [], acc => if acc.isEmpty then [] else [acc.reverse]
  | c :: rest, acc =>
    if p c then runsBy p rest (c :: acc)
    else if acc.isEmpty then runsBy p rest []
    else acc.reverse :: runsBy p rest []

/-- `regex.find_iter` for the pattern `\b\w+\b`: the maximal word-character
runs of the input, in order. -/
def wordRuns (s : String) : List String :=
  (runsBy wordChar s.toList []).map (fun cs => String.mk cs)

/-- `str::split_whitespace`: maximal non-whitespace runs, in order. -/
def splitWhitespace (s : String) : List String :=
  (runsBy (fun c => !c.isWhitespace) s.toList []).map (fun cs => String.mk cs)

namespace Tokenizer

/-- `Tokenizer::tokenize`: match `\b\w+\b` runs, lowercase each match,
stem it.  `stem` is the external English stemmer. -/
def tokenize (stem : String → String) (text : String) : List String :=
  (wordRuns text).map (fun t => stem (toLowerStr t))

end Tokenizer

/-- The bold/title/heading token streams of `create_index`:
`split_whitespace`, `str::trim`, then the stemmer — without lowercasing. -/
def roleTokenize (stem : String → String) (text : String) : List String :=
  (splitWhitespace text).map (fun t => stem (trimStr t))

/-! Query engine (`src/search/engine.rs`).  Scores are `f64`; the engine
only adds and compares them, so they are modelled by an executable
carrier: a rational, or the NaN point on which `partial_cmp` is `none`.
The two disk stores are abstracted to their key→value views (the
`StoreInv`-governed contents), so `get`/`get_doc` are pure lookups. -/

/-- Executable model of the `f64` values the query engine manipulates:
a finite numeric value or NaN (infinities are not exercised). -/
inductive F64 where
  | num (q : ℚ)
  | nan
deriving DecidableEq, Repr

/-- `f64` addition: NaN absorbs. -/
def F64.add : F64 → F64 → F64
  | num a, num b => num (a + b)
  | _, _ => nan

/-- `f64::partial_cmp`: `None` exactly when an operand is NaN. -/
def F64.partialCmp : F64 → F64 → Option Ordering
  | num a, num b => some (compare a b)
  | _, _ => none

/-- Whether the value is a number (not NaN). -/
def F64.isNumber : F64 → Bool
  | num _ => true
  | nan => false

/-- `TermIndex` from `disk_inverted_index.rs`: `{doc_id, tf_idf}`, the
scored posting the query engine reads. -/
structure TermIndexQ where
  doc_id : Nat
  tf_idf : F64
deriving DecidableEq, Repr

/-- `Doc` from `doc_map.rs`. -/
structure DocR where
  url : String
deriving DecidableEq, Repr

/-- `SearchResult` from `search_result.rs`. -/
structure SearchResultF where
  url : String
  score : F64
deriving DecidableEq, Repr

/-- The two read-only stores `SearchEngine::search` consults, as their
key→value contents. -/
structure SearchIndex where
  db : List (String × List TermIndexQ)
  url_map : List (Nat × DocR)

/-- One step of the accumulation loop:
`*document_ids.entry(doc_id).or_insert(0.0) += tf_idf`. -/
def addScore : List (Nat × F64) → Nat → F64 → List (Nat × F64)
  | [], d, v => [(d, F64.add (F64.num 0) v)]
  | (d0, s) :: rest, d, v =>
    if d0 = d then (d0, F64.add s v) :: rest
    else (d0, s) :: addScore rest d v

/-- The loop body for one query token: a token absent from the postings
store is skipped, otherwise every posting of its list contributes its
`tf_idf` to that posting's document. -/
def scoreToken (db : List (String × List TermIndexQ))
    (m : List (Nat × F64)) (token : String) : List (Nat × F64) :=
  match lookupKV db token with
  | some postings =>
    postings.foldl (fun m2 p => addScore m2 p.doc_id p.tf_idf) m
  | none => m

/-- The full accumulation over the tokenized query. -/
def accumScores (stem : String → String) (db : List (String × List TermIndexQ))
    (query : String) : List (Nat × F64) :=
  (Tokenizer.tokenize stem query).foldl (scoreToken db) []

/-- The comparator passed to `sort_by`:
`|a, b| b.1.partial_cmp(&a.1).unwrap_or(Ordering::Greater)`. -/
def cmpScore (a b : Nat × F64) : Ordering :=
  (F64.partialCmp b.2 a.2).getD Ordering.gt

/-- `a` may stay before `b` under the comparator (it does not order `a`
strictly after `b`). -/
def leScore (a b : Nat × F64) : Bool :=
  match cmpScore a b with
  | Ordering.gt => false
  | _ => true

/-- Stable insertion into a sorted prefix. -/
def sortInsert {α : Type} (le : α → α → Bool) (x : α) : List α → List α
  | [] => [x]
  | y :: l => if le x y then x :: y :: l else y :: sortInsert le x l

/-- Stable sort by the given test.  `slice::sort_by` is a stable sort; on
a total comparator every stable sort produces this output, and on the
non-total NaN comparisons its output is unspecified, which this model
resolves deterministically. -/
def sortByCmp {α : Type} (le : α → α → Bool) (l : List α) : List α :=
  l.foldr (sortInsert le) []

/-- The `(doc_id, score)` list after accumulation and sorting, i.e. the
state of `search` just before doc-id resolution. -/
def searchPairs (stem : String → String) (idx : SearchIndex)
    (query : String) : List (Nat × F64) :=
  sortByCmp leScore (accumScores stem idx.db query)

/-- The resolution loop of `search`: each doc-id is resolved through the
doc-map store; an absent doc-id fails the whole query with the
`Generic "Document not found"` error, as `collect::<Result<_>>` does. -/
def resolveDocs (urlMap : List (Nat × DocR)) :
    List (Nat × F64) → Except KVError (List SearchResultF)
  | [] => .ok []
  | (d, s) :: rest =>
    match lookupKV urlMap d with
    | none => .error (.generic "Document not found")
    | some doc =>
      match resolveDocs urlMap rest with
      | .error e => .error e
      | .ok rs => .ok (⟨doc.url, s⟩ :: rs)

/-- `SearchEngine::search`. -/
def searchF (stem : String → String) (idx : SearchIndex)
    (query : String) : Except KVError (List SearchResultF) :=
  resolveDocs idx.url_map (searchPairs stem idx query)

/-- All NaN-scored entries of the list sit at its end: once a NaN is
seen, only NaN follows. -/
def nanAtEnd (l : List F64) : Bool :=
  (l.dropWhile fun x => x.isNumber).all (fun x => !x.isNumber)

/-- Descending order on scores: both are numbers and the left one is at
least the right one (a NaN is never ordered). -/
def F64.ge : F64 → F64 → Prop
  | .num x, .num y => y ≤ x
  | _, _ => False

/-- Concrete store for the NaN sorting counterexample: token `a` scores
document 0 with 1.0 and token `b` scores document 1 with NaN. -/
def exNanIdx : SearchIndex :=
  { db := [("a", [⟨0, F64.num 1⟩]), ("b", [⟨1, F64.nan⟩])],
    url_map := [(0, ⟨"u0"⟩), (1, ⟨"u1"⟩)] }

/-- Concrete NaN-free store for the sortedness witness. -/
def exNumIdx : SearchIndex :=
  { db := [("a", [⟨0, F64.num 1⟩]), ("b", [⟨1, F64.num 2⟩])],
    url_map := [(0, ⟨"u0"⟩), (1, ⟨"u1"⟩)] }

/-- Concrete healthy store: every posting doc-id resolves. -/
def exIdxOk : SearchIndex :=
  { db := [("a", [⟨0, F64.nan⟩])], url_map := [(0, ⟨"u0"⟩)] }

/-- Concrete corrupted store: doc-id 0 occurs in a posting list but is
absent from the doc map. -/
def exIdxBad : SearchIndex :=
  { db := [("a", [⟨0, F64.nan⟩])], url_map := [] }

/-! Index builder (`src/inverted_index/disk_inverted_index.rs`).  The
TF-IDF score uses `log10` and is modelled over `ℝ`; everything else is
executable.  The doc-map store built alongside the postings store does
not influence the postings pipeline and is not modelled here. -/

/-- `TempTermIndex`: a first-pass posting `{doc_id, tf}`. -/
structure TempTermIndexR where
  doc_id : Nat
  tf : Nat
deriving DecidableEq, Repr

/-- `TermIndex`: a scored posting `{doc_id, tf_idf}`, the `f64` score
modelled by `ℝ`. -/
structure TermIndexR where
  doc_id : Nat
  tf_idf : ℝ

/-- Modelled from the spec: the weight constants live in
`inverted_index/constants.rs`, which is not among the given sources;
§4.B of the spec fixes body = 1, bold = 3, heading = 5, title = 10 (the
code stores them as floats and adds `(WEIGHT - 1.0) as u32`). -/
def BOLD_WEIGHT : Nat := 3

/-- Modelled from the spec: see `BOLD_WEIGHT`. -/
def TITLE_WEIGHT : Nat := 10

/-- Modelled from the spec: see `BOLD_WEIGHT`. -/
def HEADER_WEIGHT : Nat := 5

/-- `let count = word_count.entry(token).or_insert(0); *count += inc`. -/
def bumpCount : List (String × Nat) → String → Nat → List (String × Nat)
  | [], w, inc => [(w, 0 + inc)]
  | (w0, c) :: rest, w, inc =>
    if w0 = w then (w0, c + inc) :: rest
    else (w0, c) :: bumpCount rest w inc

/-- The four counting loops of `create_index` over one document: body
tokens add 1 each; bold, title and heading stems add `WEIGHT - 1` each
(their text also occurs in the body stream, which supplies the missing
1 when the tokenizations agree). -/
def wordCount (bodyTokens boldStems titleStems headerStems : List String) :
    List (String × Nat) :=
  headerStems.foldl (fun m t => bumpCount m t (HEADER_WEIGHT - 1))
    (titleStems.foldl (fun m t => bumpCount m t (TITLE_WEIGHT - 1))
      (boldStems.foldl (fun m t => bumpCount m t (BOLD_WEIGHT - 1))
        (bodyTokens.foldl (fun m t => bumpCount m t 1) [])))

/-- The per-document `word_count` exactly as `create_index` builds it:
body text through the external BERT tokenizer `bert`, each role stream
through `split_whitespace` + `trim` + `stem`. -/
def docWordCount (bert : String → List String) (stem : String → String)
    (allText boldText titleText headerText : String) : List (String × Nat) :=
  wordCount (bert allText) (roleTokenize stem boldText)
    (roleTokenize stem titleText) (roleTokenize stem headerText)

/-- `calculate_tf_idf`: `(1.0 + tf.log10()) * (n / df).log10()`. -/
noncomputable def calculate_tf_idf (tf df n : ℝ) : ℝ :=
  (1 + Real.logb 10 tf) * Real.logb 10 (n / df)

/-- The per-term transform of `calculate_scores`: `df` is the posting
list's length and every posting is rescored in place. -/
noncomputable def scoreList (value : List TempTermIndexR) (numDocs : Nat) :
    List TermIndexR :=
  value.map fun p =>
    ⟨p.doc_id, calculate_tf_idf (p.tf : ℝ) (value.length : ℝ) (numDocs : ℝ)⟩

/-- `inverted_index.entry(word).or_default().push(index_data)`. -/
def pushPosting (inv : List (String × List TempTermIndexR)) (w : String)
    (p : TempTermIndexR) : List (String × List TempTermIndexR) :=
  match inv with
  | [] => [(w, [p])]
  | (w0, l) :: rest =>
    if w0 = w then (w0, l ++ [p]) :: rest
    else (w0, l) :: pushPosting rest w p

/-- The per-document loop over `word_count`: push one
`TempTermIndex {doc_id, tf = count}` per `(word, count)` pair. -/
def pushDoc (inv : List (String × List TempTermIndexR)) (docId : Nat)
    (wc : List (String × Nat)) : List (String × List TempTermIndexR) :=
  wc.foldl (fun inv2 e => pushPosting inv2 e.1 ⟨docId, e.2⟩) inv

/-- `KVDatabase::extend` at the level of key→value contents: the
value-level rendering of the byte-level `KVDatabase.extend` (whose
`extend_spec` proves exactly this lookup transition): retained old
entries, then the batch with `old ++ new` on shared keys. -/
def extendL {K T : Type} [DecidableEq K] (store batch : List (K × List T)) :
    List (K × List T) :=
  if batch.isEmpty then store else
  (store.filter fun p => (lookupKV batch p.1).isNone) ++
    batch.map fun p =>
      (p.1,
        match lookupKV store p.1 with
        | some old => old ++ p.2
        | none => p.2)

/-- `HashMap::insert`: upsert one binding. -/
def insertA {K V : Type} [DecidableEq K] :
    List (K × V) → K → V → List (K × V)
  | [], k, v => [(k, v)]
  | (k0, v0) :: rest, k, v =>
    if k0 = k then (k0, v) :: rest
    else (k0, v0) :: insertA rest k v

/-- Phase 1 of `create_index` over the walked documents, each abstracted
to its `word_count` list: push the document's postings, flush the partial
index through `extend` whenever `doc_id % 10_000 == 0`, and flush the
remainder after the walk. -/
def buildGo (docs : List (List (String × Nat))) (docId : Nat)
    (db inv : List (String × List TempTermIndexR)) :
    List (String × List TempTermIndexR) :=
  match docs with
  | [] => extendL db inv
  | wc :: rest =>
    let inv2 := pushDoc inv docId wc
    if docId % 10000 = 0 then buildGo rest (docId + 1) (extendL db inv2) []
    else buildGo rest (docId + 1) db inv2

/-- The phase-1 postings store produced by `create_index`. -/
def buildIndex (docs : List (List (String × Nat))) :
    List (String × List TempTermIndexR) :=
  buildGo docs 0 [] []

/-- `calculate_scores`: iterate the phase-1 store; rescore each term's
list; flush `final_map` into the temp store through `extend` whenever
`i % 10_000 == 0`; flush the remainder. -/
noncomputable def calcGo (entries : List (String × List TempTermIndexR))
    (i numDocs : Nat) (temp fm : List (String × List TermIndexR)) :
    List (String × List TermIndexR) :=
  match entries with
  | [] => extendL temp fm
  | (key, value) :: rest =>
    let fm2 := insertA fm key (scoreList value numDocs)
    if i % 10000 = 0 then calcGo rest (i + 1) numDocs (extendL temp fm2) []
    else calcGo rest (i + 1) numDocs temp fm2

/-- The scored index left at the postings path after `calculate_scores`
renames its temp store over the original. -/
noncomputable def calculateScores (db : List (String × List TempTermIndexR))
    (numDocs : Nat) : List (String × List TermIndexR) :=
  calcGo db 0 numDocs [] []

/-- Invariant of the in-memory partial inverted index holding documents
of `[lo, hi)`: keys are unique and every term's posting list has
duplicate-free doc-ids lying in `[lo, hi)`. -/
def InvOK (lo hi : Nat) (inv : List (String × List TempTermIndexR)) : Prop :=
  (inv.map Prod.fst).Nodup ∧
  ∀ w lst, lookupKV inv w = some lst →
    (lst.map TempTermIndexR.doc_id).Nodup ∧
    ∀ p ∈ lst, lo ≤ p.doc_id ∧ p.doc_id < hi

/-- Invariant of the phase-1 store after documents below `hi` have been
flushed: keys unique, each term's doc-ids duplicate-free and below
`hi`. -/
def StoreListOK (hi : Nat) (db : List (String × List TempTermIndexR)) : Prop :=
  (db.map Prod.fst).Nodup ∧
  ∀ w lst, lookupKV db w = some lst →
    (lst.map TempTermIndexR.doc_id).Nodup ∧ ∀ p ∈ lst, p.doc_id < hi

section LookupLemmas

variable {K V : Type} [DecidableEq K]

theorem lookupKV_eq_none {l : List (K × V)} {k : K} :
    lookupKV l k = none ↔ k ∉ l.map Prod.fst := by
  induction l with
  | nil => simp [lookupKV]
  | cons p rest ih =>
    obtain ⟨k0, v0⟩ := p
    by_cases h : k0 = k
    · subst h
      simp [lookupKV]
    · simp only [lookupKV, if_neg h, List.map_cons, List.mem_cons, ih]
      constructor
      · rintro hn (hk | hk)
        · exact h hk.symm
        · exact hn hk
      · intro hn hk
        exact hn (Or.inr hk)

theorem lookupKV_append (a b : List (K × V)) (k : K) :
    lookupKV (a ++ b) k =
      match lookupKV a k with
      | some v => some v
      | none => lookupKV b k := by
  induction a with
  | nil => simp [lookupKV]
  | cons p rest ih =>
    obtain ⟨k0, v0⟩ := p
    by_cases h : k0 = k <;> simp [lookupKV, h, ih]

theorem lookupKV_mem {l : List (K × V)} {k : K} {v : V}
    (h : lookupKV l k = some v) : (k, v) ∈ l := by
  induction l with
  | nil => simp [lookupKV] at h
  | cons p rest ih =>
    obtain ⟨k0, v0⟩ := p
    by_cases hk : k0 = k
    · subst hk
      simp [lookupKV] at h
      simp [h]
    · simp [lookupKV, hk] at h
      exact List.mem_cons_of_mem _ (ih h)

theorem lookupKV_of_mem_nodup {l : List (K × V)} {k : K} {v : V}
    (hnd : (l.map Prod.fst).Nodup) (h : (k, v) ∈ l) : lookupKV l k = some v := by
  induction l with
  | nil => simp at h
  | cons p rest ih =>
    obtain ⟨k0, v0⟩ := p
    simp only [List.map_cons, List.nodup_cons] at hnd
    rcases List.mem_cons.mp h with heq | hmem
    · cases heq
      simp [lookupKV]
    · have hk : k0 ≠ k := by
        intro hkk
        subst hkk
        exact hnd.1 (List.mem_map.mpr ⟨(k0, v), hmem, rfl⟩)
      simp [lookupKV, hk]
      exact ih hnd.2 hmem

theorem lookupKV_filter (Q : K → Bool) (l : List (K × V)) (k : K) :
    lookupKV (l.filter fun p => Q p.1) k =
      if Q k then lookupKV l k else none := by
  induction l with
  | nil => simp [lookupKV]
  | cons p rest ih =>
    obtain ⟨k0, v0⟩ := p
    by_cases hq : Q k0
    · rw [List.filter_cons_of_pos (by simpa using hq)]
      by_cases hk : k0 = k
      · subst hk
        simp [lookupKV, hq]
      · simp only [lookupKV, if_neg hk]
        exact ih
    · rw [List.filter_cons_of_neg (by simpa using hq)]
      by_cases hk : k0 = k
      · subst hk
        have hq' : Q k0 = false := by simpa using hq
        simp [lookupKV, ih, hq']
      · simp only [lookupKV, if_neg hk]
        exact ih

theorem lookupKV_filter_isNone {W : Type} (batch : List (K × W))
    (l : List (K × V)) (k : K) :
    lookupKV (l.filter fun p => (lookupKV batch p.1).isNone) k =
      if (lookupKV batch k).isNone then lookupKV l k else none :=
  lookupKV_filter (fun k2 => (lookupKV batch k2).isNone) l k

theorem lookupKV_isSome_iff {l : List (K × V)} {k : K} :
    (lookupKV l k).isSome ↔ k ∈ l.map Prod.fst := by
  rcases h : lookupKV l k with _ | v
  · simp [lookupKV_eq_none.mp h]
  · simp only [Option.isSome_some, true_iff, List.mem_map]
    exact ⟨(k, v), lookupKV_mem h, rfl⟩

end LookupLemmas

namespace KVDatabase

section ReadLemmas

theorem readSlice_length {data b : List Nat} {pos len : Nat}
    (h : readSlice data pos len = some b) : b.length = len := by
  unfold readSlice at h
  by_cases hc : pos + len ≤ data.length
  · rw [if_pos hc] at h
    injection h with h'
    subst h'
    simp only [List.length_take, List.length_drop]
    omega
  · rw [if_neg hc] at h
    cases h

theorem readSlice_bound {data b : List Nat} {pos len : Nat}
    (h : readSlice data pos len = some b) : pos + len ≤ data.length := by
  unfold readSlice at h
  by_cases hc : pos + len ≤ data.length
  · exact hc
  · rw [if_neg hc] at h
    cases h

theorem readSlice_append (pre b ext : List Nat) :
    readSlice (pre ++ (b ++ ext)) pre.length b.length = some b := by
  unfold readSlice
  have hle : pre.length + b.length ≤ (pre ++ (b ++ ext)).length := by
    simp only [List.length_append]
    omega
  rw [if_pos hle]
  rw [List.drop_left, List.take_left]

end ReadLemmas

section StoreLemmas

variable {K : Type} [DecidableEq K]

theorem get_spec {V : Type} {deser : List Nat → Option V} {st : DiskState K}
    {f : K → Option V} (hinv : StoreInv deser st f) (k : K) :
    get deser st k = .ok (f k) := by
  rcases hf : f k with _ | v
  · have hl := hinv.complete k hf
    simp [get, hl]
  · obtain ⟨sp, b, h1, h2, h3⟩ := hinv.sound k v hf
    simp [get, h1, h2, h3]

theorem storeInv_new {V : Type} (deser : List Nat → Option V) :
    StoreInv (K := K) deser newDisk (fun _ => none) := by
  refine ⟨by simp [newDisk], by simp, fun k _ => ?_⟩
  simp [newDisk, lookupKV]

theorem copyOld_spec (data : List Nat) :
    ∀ (entries : List (K × SeekPos)) (pre : List Nat),
      (∀ p ∈ entries, p.2.pos + p.2.len ≤ data.length) →
      ∃ D M, copyOld data entries pre.length = some (D, M) ∧
        M.map Prod.fst = entries.map Prod.fst ∧
        ∀ ext k sp2, lookupKV M k = some sp2 →
          ∃ sp, lookupKV entries k = some sp ∧
            readSlice (pre ++ (D ++ ext)) sp2.pos sp2.len =
              readSlice data sp.pos sp.len := by
  intro entries
  induction entries with
  | nil =>
    intro pre hr
    refine ⟨[], [], rfl, rfl, ?_⟩
    intro ext k sp2 h
    simp [lookupKV] at h
  | cons p rest ih =>
    obtain ⟨k0, sp0⟩ := p
    intro pre hr
    have hb : readSlice data sp0.pos sp0.len =
        some ((data.drop sp0.pos).take sp0.len) := by
      unfold readSlice
      rw [if_pos (hr (k0, sp0) (List.mem_cons_self _ _))]
    set b := (data.drop sp0.pos).take sp0.len with hbdef
    have hblen : b.length = sp0.len := readSlice_length hb
    obtain ⟨D, M, hrun, hkeys, hread⟩ :=
      ih (pre ++ b) (fun q hq => hr q (List.mem_cons_of_mem _ hq))
    have hoff : (pre ++ b).length = pre.length + sp0.len := by
      simp [hblen]
    rw [hoff] at hrun
    refine ⟨b ++ D, (k0, ⟨pre.length, sp0.len⟩) :: M, ?_, ?_, ?_⟩
    · simp [copyOld, hb, hrun]
    · simp [hkeys]
    · intro ext k sp2 hlk
      by_cases hk : k0 = k
      · subst hk
        simp only [lookupKV, if_pos rfl] at hlk
        cases hlk
        refine ⟨sp0, by simp [lookupKV], ?_⟩
        rw [hb, ← hblen]
        have hassoc : pre ++ (b ++ D ++ ext) = pre ++ (b ++ (D ++ ext)) := by
          simp
        rw [hassoc, readSlice_append]
      · simp only [lookupKV, if_neg hk] at hlk
        obtain ⟨sp, hsp, hrd⟩ := hread ext k sp2 hlk
        refine ⟨sp, by simp [lookupKV, if_neg hk, hsp], ?_⟩
        have hassoc : pre ++ (b ++ D ++ ext) = pre ++ b ++ (D ++ ext) := by
          simp
        rw [hassoc, hrd]

theorem writeNewInsert_spec {V : Type} (ser : V → List Nat) :
    ∀ (batch : List (K × V)) (pre : List Nat),
      ∃ D M, writeNewInsert ser batch pre.length = (D, M) ∧
        M.map Prod.fst = batch.map Prod.fst ∧
        ∀ ext k,
          (∀ v, lookupKV batch k = some v →
            ∃ sp2, lookupKV M k = some sp2 ∧
              readSlice (pre ++ (D ++ ext)) sp2.pos sp2.len = some (ser v)) ∧
          (lookupKV batch k = none → lookupKV M k = none) := by
  intro batch
  induction batch with
  | nil =>
    intro pre
    refine ⟨[], [], rfl, rfl, ?_⟩
    intro ext k
    exact ⟨fun v h => by simp [lookupKV] at h, fun _ => rfl⟩
  | cons p rest ih =>
    obtain ⟨k0, v0⟩ := p
    intro pre
    obtain ⟨D, M, hrun, hkeys, hread⟩ := ih (pre ++ ser v0)
    have hoff : (pre ++ ser v0).length = pre.length + (ser v0).length := by
      simp
    rw [hoff] at hrun
    refine ⟨ser v0 ++ D, (k0, ⟨pre.length, (ser v0).length⟩) :: M, ?_, ?_, ?_⟩
    · simp [writeNewInsert, hrun]
    · simp [hkeys]
    · intro ext k
      constructor
      · intro v hv
        by_cases hk : k0 = k
        · subst hk
          simp only [lookupKV, if_pos rfl] at hv
          cases hv
          refine ⟨⟨pre.length, (ser v0).length⟩, by simp [lookupKV], ?_⟩
          have hassoc : pre ++ (ser v0 ++ D ++ ext) = pre ++ (ser v0 ++ (D ++ ext)) := by
            simp
          rw [hassoc, readSlice_append]
        · simp only [lookupKV, if_neg hk] at hv
          obtain ⟨sp2, hsp2, hrd⟩ := (hread ext k).1 v hv
          refine ⟨sp2, by simp [lookupKV, if_neg hk, hsp2], ?_⟩
          have hassoc : pre ++ (ser v0 ++ D ++ ext) = pre ++ ser v0 ++ (D ++ ext) := by
            simp
          rw [hassoc, hrd]
      · intro hv
        by_cases hk : k0 = k
        · subst hk
          simp [lookupKV] at hv
        · simp only [lookupKV, if_neg hk] at hv ⊢
          exact (hread ext k).2 hv

theorem writeNewExtend_spec {T : Type} (ser : List T → List Nat)
    (deser : List Nat → Option (List T)) (st : DiskState K)
    (f : K → Option (List T)) (hinv : StoreInv deser st f) :
    ∀ (batch : List (K × List T)) (pre : List Nat),
      ∃ D M, writeNewExtend ser deser st batch pre.length = .ok (D, M) ∧
        M.map Prod.fst = batch.map Prod.fst ∧
        ∀ ext k,
          (∀ v, lookupKV batch k = some v →
            ∃ sp2, lookupKV M k = some sp2 ∧
              readSlice (pre ++ (D ++ ext)) sp2.pos sp2.len =
                some (ser ((f k).getD [] ++ v))) ∧
          (lookupKV batch k = none → lookupKV M k = none) := by
  intro batch
  induction batch with
  | nil =>
    intro pre
    refine ⟨[], [], rfl, rfl, ?_⟩
    intro ext k
    exact ⟨fun v h => by simp [lookupKV] at h, fun _ => rfl⟩
  | cons p rest ih =>
    obtain ⟨k0, v0⟩ := p
    -- the merged value written for the head entry, and the fact that the
    -- head of the batch loop succeeds and writes `ser ((f k0).getD [] ++ v0)`
    have hhead : ∃ w, (f k0).getD [] ++ v0 = w ∧
        ∀ pre2 rest2,
          writeNewExtend ser deser st ((k0, v0) :: rest2) pre2 =
            match writeNewExtend ser deser st rest2 (pre2 + (ser w).length) with
            | .error e => .error e
            | .ok (dRest, mRest) =>
              .ok (ser w ++ dRest, (k0, ⟨pre2, (ser w).length⟩) :: mRest) := by
      rcases hm : lookupKV st.manifest k0 with _ | sp
      · rcases hf : f k0 with _ | w
        · refine ⟨v0, by simp [hf], ?_⟩
          intro pre2 rest2
          simp [writeNewExtend, hm]
        · obtain ⟨sp', b, hsp, _, _⟩ := hinv.sound k0 w hf
          rw [hm] at hsp
          cases hsp
      · rcases hf : f k0 with _ | w
        · have := hinv.complete k0 hf
          rw [hm] at this
          cases this
        · obtain ⟨sp', b, hsp, hrd, hds⟩ := hinv.sound k0 w hf
          rw [hm] at hsp
          injection hsp with hsp
          subst hsp
          refine ⟨w ++ v0, by simp [hf], ?_⟩
          intro pre2 rest2
          simp [writeNewExtend, hm, hrd, hds]
    obtain ⟨w, hw, hstep⟩ := hhead
    intro pre
    obtain ⟨D, M, hrun, hkeys, hread⟩ := ih (pre ++ ser w)
    have hoff : (pre ++ ser w).length = pre.length + (ser w).length := by
      simp
    rw [hoff] at hrun
    refine ⟨ser w ++ D, (k0, ⟨pre.length, (ser w).length⟩) :: M, ?_, ?_, ?_⟩
    · rw [hstep pre.length rest, hrun]
    · simp [hkeys]
    · intro ext k
      constructor
      · intro v hv
        by_cases hk : k0 = k
        · subst hk
          simp only [lookupKV, if_pos rfl] at hv
          cases hv
          refine ⟨⟨pre.length, (ser w).length⟩, by simp [lookupKV], ?_⟩
          have hassoc : pre ++ (ser w ++ D ++ ext) = pre ++ (ser w ++ (D ++ ext)) := by
            simp
          rw [hassoc, readSlice_append, hw]
        · simp only [lookupKV, if_neg hk] at hv
          obtain ⟨sp2, hsp2, hrd⟩ := (hread ext k).1 v hv
          refine ⟨sp2, by simp [lookupKV, if_neg hk, hsp2], ?_⟩
          have hassoc : pre ++ (ser w ++ D ++ ext) = pre ++ ser w ++ (D ++ ext) := by
            simp
          rw [hassoc, hrd]
      · intro hv
        by_cases hk : k0 = k
        · subst hk
          simp [lookupKV] at hv
        · simp only [lookupKV, if_neg hk] at hv ⊢
          exact (hread ext k).2 hv

theorem copyOld_ranges {V : Type} {deser : List Nat → Option V}
    {st : DiskState K} {f : K → Option V} (hinv : StoreInv deser st f)
    (Q : K → Bool) :
    ∀ p ∈ st.manifest.filter fun q => Q q.1,
      p.2.pos + p.2.len ≤ st.data.length := by
  intro p hp
  have hpm : p ∈ st.manifest := List.mem_of_mem_filter hp
  have hlk : lookupKV st.manifest p.1 = some p.2 :=
    lookupKV_of_mem_nodup hinv.nodup (by simpa using hpm)
  rcases hf : f p.1 with _ | w
  · rw [hinv.complete p.1 hf] at hlk
    cases hlk
  · obtain ⟨sp, b, hsp, hrd, _⟩ := hinv.sound p.1 w hf
    rw [hlk] at hsp
    injection hsp with hsp
    subst hsp
    exact readSlice_bound hrd

/-- `extend` succeeds on a well-formed store and establishes the invariant
for the abstract `extendMap` transition. -/
theorem extend_spec {T : Type} (ser : List T → List Nat)
    (deser : List Nat → Option (List T)) {st : DiskState K}
    {f : K → Option (List T)} (hinv : StoreInv deser st f)
    (hrt : ∀ v, deser (ser v) = some v)
    (batch : List (K × List T)) (hbn : (batch.map Prod.fst).Nodup) :
    ∃ st2, extend ser deser st batch = .ok st2 ∧
      StoreInv deser st2 (extendMap f batch) := by
  by_cases hemp : batch.isEmpty
  · have hbe : batch = [] := by simpa [List.isEmpty_iff] using hemp
    subst hbe
    refine ⟨st, by simp [extend], ?_⟩
    have hfe : extendMap f [] = f := by
      funext k
      simp [extendMap, lookupKV]
    rw [hfe]
    exact hinv
  · obtain ⟨D1, M1, hc1, hk1, hrd1⟩ :=
      copyOld_spec (K := K) st.data
        (st.manifest.filter fun p => (lookupKV batch p.1).isNone) []
        (copyOld_ranges hinv (fun k => (lookupKV batch k).isNone))
    obtain ⟨D2, M2, hc2, hk2, hrd2⟩ :=
      writeNewExtend_spec ser deser st f hinv batch D1
    refine ⟨⟨D1 ++ D2, M1 ++ M2⟩, ?_, ?_, ?_, ?_⟩
    · unfold extend
      rw [if_neg hemp]
      simp only [List.length_nil] at hc1
      rw [hc1]
      simp [hc2]
    · -- manifest keys of the new state are unique
      simp only [List.map_append, hk1, hk2]
      refine List.Nodup.append ?_ hbn ?_
      · exact (((List.filter_sublist _).map Prod.fst).nodup hinv.nodup)
      · intro k hk1m hk2m
        obtain ⟨p, hp, hpk⟩ := List.mem_map.mp hk1m
        have hpred := (List.mem_filter.mp hp).2
        rw [hpk] at hpred
        have : lookupKV batch k = none := by
          simpa [Option.isNone_iff_eq_none] using hpred
        exact lookupKV_eq_none.mp this hk2m
    · -- soundness of every mapped key
      intro k v hv
      unfold extendMap at hv
      rcases hb : lookupKV batch k with _ | w
      · rw [hb] at hv
        obtain ⟨sp, b, hsp, hrd, hds⟩ := hinv.sound k v hv
        have hcop : lookupKV
            (st.manifest.filter fun p => (lookupKV batch p.1).isNone) k =
            some sp := by
          rw [lookupKV_filter_isNone]
          simp [hb, hsp]
        have hkmem : k ∈ M1.map Prod.fst := by
          rw [hk1]
          exact List.mem_map.mpr ⟨(k, sp), lookupKV_mem hcop, rfl⟩
        obtain ⟨sp2, hsp2⟩ :=
          Option.isSome_iff_exists.mp (lookupKV_isSome_iff.mpr hkmem)
        obtain ⟨sp', hsp', hread⟩ := hrd1 D2 k sp2 hsp2
        rw [hcop] at hsp'
        injection hsp' with hsp'
        subst hsp'
        refine ⟨sp2, b, ?_, ?_, hds⟩
        · rw [lookupKV_append, hsp2]
        · show readSlice (D1 ++ D2) sp2.pos sp2.len = some b
          have : ([] : List Nat) ++ (D1 ++ D2) = D1 ++ D2 := by simp
          rw [← this, hread, hrd]
      · rw [hb] at hv
        obtain ⟨sp2, hsp2, hread⟩ := (hrd2 [] k).1 w hb
        have hm1 : lookupKV M1 k = none := by
          apply lookupKV_eq_none.mpr
          rw [hk1]
          intro hmem
          obtain ⟨p, hp, hpk⟩ := List.mem_map.mp hmem
          have hpred := (List.mem_filter.mp hp).2
          rw [hpk] at hpred
          rw [hb] at hpred
          simp at hpred
        refine ⟨sp2, ser ((f k).getD [] ++ w), ?_, ?_, ?_⟩
        · rw [lookupKV_append, hm1, hsp2]
        · show readSlice (D1 ++ D2) sp2.pos sp2.len = _
          have : D1 ++ (D2 ++ []) = D1 ++ D2 := by simp
          rw [← this, hread]
        · rw [hrt]
          injection hv with hv
          rw [hv]
    · -- completeness for unmapped keys
      intro k hv
      unfold extendMap at hv
      rcases hb : lookupKV batch k with _ | w
      · rw [hb] at hv
        have hman := hinv.complete k hv
        have hm1 : lookupKV M1 k = none := by
          apply lookupKV_eq_none.mpr
          rw [hk1]
          intro hmem
          obtain ⟨p, hp, hpk⟩ := List.mem_map.mp hmem
          have hpm : p ∈ st.manifest := List.mem_of_mem_filter hp
          have : k ∈ st.manifest.map Prod.fst :=
            List.mem_map.mpr ⟨p, hpm, hpk⟩
          exact lookupKV_eq_none.mp hman this
        have hm2 : lookupKV M2 k = none := (hrd2 [] k).2 hb
        rw [lookupKV_append, hm1, hm2]
      · rw [hb] at hv
        cases hv

/-- `insert` succeeds on a well-formed store and establishes the invariant
for the abstract `insertMap` transition. -/
theorem insert_spec {V : Type} (ser : V → List Nat)
    (deser : List Nat → Option V) {st : DiskState K}
    {f : K → Option V} (hinv : StoreInv deser st f)
    (hrt : ∀ v, deser (ser v) = some v)
    (batch : List (K × V)) (hbn : (batch.map Prod.fst).Nodup) :
    ∃ st2, insert ser st batch = .ok st2 ∧
      StoreInv deser st2 (insertMap f batch) := by
  by_cases hemp : batch.isEmpty
  · have hbe : batch = [] := by simpa [List.isEmpty_iff] using hemp
    subst hbe
    refine ⟨st, by simp [insert], ?_⟩
    have hfe : insertMap f [] = f := by
      funext k
      simp [insertMap, lookupKV]
    rw [hfe]
    exact hinv
  · obtain ⟨D1, M1, hc1, hk1, hrd1⟩ :=
      copyOld_spec (K := K) st.data
        (st.manifest.filter fun p => (lookupKV batch p.1).isNone) []
        (copyOld_ranges hinv (fun k => (lookupKV batch k).isNone))
    obtain ⟨D2, M2, hc2, hk2, hrd2⟩ := writeNewInsert_spec (K := K) ser batch D1
    refine ⟨⟨D1 ++ D2, M1 ++ M2⟩, ?_, ?_, ?_, ?_⟩
    · unfold insert
      rw [if_neg hemp]
      simp only [List.length_nil] at hc1
      rw [hc1]
      simp [hc2]
    · simp only [List.map_append, hk1, hk2]
      refine List.Nodup.append ?_ hbn ?_
      · exact (((List.filter_sublist _).map Prod.fst).nodup hinv.nodup)
      · intro k hk1m hk2m
        obtain ⟨p, hp, hpk⟩ := List.mem_map.mp hk1m
        have hpred := (List.mem_filter.mp hp).2
        rw [hpk] at hpred
        have : lookupKV batch k = none := by
          simpa [Option.isNone_iff_eq_none] using hpred
        exact lookupKV_eq_none.mp this hk2m
    · intro k v hv
      unfold insertMap at hv
      rcases hb : lookupKV batch k with _ | w
      · rw [hb] at hv
        obtain ⟨sp, b, hsp, hrd, hds⟩ := hinv.sound k v hv
        have hcop : lookupKV
            (st.manifest.filter fun p => (lookupKV batch p.1).isNone) k =
            some sp := by
          rw [lookupKV_filter_isNone]
          simp [hb, hsp]
        have hkmem : k ∈ M1.map Prod.fst := by
          rw [hk1]
          exact List.mem_map.mpr ⟨(k, sp), lookupKV_mem hcop, rfl⟩
        obtain ⟨sp2, hsp2⟩ :=
          Option.isSome_iff_exists.mp (lookupKV_isSome_iff.mpr hkmem)
        obtain ⟨sp', hsp', hread⟩ := hrd1 D2 k sp2 hsp2
        rw [hcop] at hsp'
        injection hsp' with hsp'
        subst hsp'
        refine ⟨sp2, b, ?_, ?_, hds⟩
        · rw [lookupKV_append, hsp2]
        · show readSlice (D1 ++ D2) sp2.pos sp2.len = some b
          have : ([] : List Nat) ++ (D1 ++ D2) = D1 ++ D2 := by simp
          rw [← this, hread, hrd]
      · rw [hb] at hv
        obtain ⟨sp2, hsp2, hread⟩ := (hrd2 [] k).1 w hb
        have hm1 : lookupKV M1 k = none := by
          apply lookupKV_eq_none.mpr
          rw [hk1]
          intro hmem
          obtain ⟨p, hp, hpk⟩ := List.mem_map.mp hmem
          have hpred := (List.mem_filter.mp hp).2
          rw [hpk] at hpred
          rw [hb] at hpred
          simp at hpred
        refine ⟨sp2, ser w, ?_, ?_, ?_⟩
        · rw [lookupKV_append, hm1, hsp2]
        · show readSlice (D1 ++ D2) sp2.pos sp2.len = _
          have : D1 ++ (D2 ++ []) = D1 ++ D2 := by simp
          rw [← this, hread]
        · rw [hrt]
          injection hv with hv
          rw [hv]
    · intro k hv
      unfold insertMap at hv
      rcases hb : lookupKV batch k with _ | w
      · rw [hb] at hv
        have hman := hinv.complete k hv
        have hm1 : lookupKV M1 k = none := by
          apply lookupKV_eq_none.mpr
          rw [hk1]
          intro hmem
          obtain ⟨p, hp, hpk⟩ := List.mem_map.mp hmem
          have hpm : p ∈ st.manifest := List.mem_of_mem_filter hp
          have : k ∈ st.manifest.map Prod.fst :=
            List.mem_map.mpr ⟨p, hpm, hpk⟩
          exact lookupKV_eq_none.mp hman this
        have hm2 : lookupKV M2 k = none := (hrd2 [] k).2 hb
        rw [lookupKV_append, hm1, hm2]
      · rw [hb] at hv
        cases hv

end StoreLemmas

end KVDatabase

theorem exSer_roundtrip : ∀ v, exDeser (exSer v) = some v := by
  intro v
  simp [exSer, exDeser]

theorem exSerNat_roundtrip : ∀ v, exDeserNat (exSerNat v) = some v := by
  intro v
  simp [exSerNat, exDeserNat]

theorem exSerMan_roundtrip : ∀ m, exDeserMan (exSerMan m) = some m := by
  intro m
  induction m with
  | nil => simp [exSerMan, exDeserMan]
  | cons p rest ih =>
    obtain ⟨k, sp⟩ := p
    simp [exSerMan, exDeserMan, ih]

/-- C1: KV store extend round-trip.  For any two batches of
sequence-valued entries applied by `extend` to a freshly created store,
and for any key `k`, a subsequent `get k` returns `some` of the
concatenation of the two batch values at `k` (an absent key contributing
the empty list), and returns `none` when `k` is in neither batch. -/
theorem kv_extend_roundtrip {K T : Type} [DecidableEq K]
    (ser : List T → List Nat) (deser : List Nat → Option (List T))
    (hrt : ∀ v, deser (ser v) = some v)
    (M1 M2 : List (K × List T))
    (h1 : (M1.map Prod.fst).Nodup) (h2 : (M2.map Prod.fst).Nodup) (k : K) :
    ∃ st1 st2,
      KVDatabase.extend ser deser KVDatabase.newDisk M1 = .ok st1 ∧
      KVDatabase.extend ser deser st1 M2 = .ok st2 ∧
      KVDatabase.get deser st2 k = .ok
        (if ((lookupKV M1 k).isNone && (lookupKV M2 k).isNone) then none
         else some ((lookupKV M1 k).getD [] ++ (lookupKV M2 k).getD [])) := by
  obtain ⟨st1, hrun1, hinv1⟩ :=
    KVDatabase.extend_spec ser deser (KVDatabase.storeInv_new deser) hrt M1 h1
  obtain ⟨st2, hrun2, hinv2⟩ :=
    KVDatabase.extend_spec ser deser hinv1 hrt M2 h2
  refine ⟨st1, st2, hrun1, hrun2, ?_⟩
  rw [KVDatabase.get_spec hinv2 k]
  congr 1
  unfold extendMap
  rcases hb2 : lookupKV M2 k with _ | v2 <;>
    rcases hb1 : lookupKV M1 k with _ | v1 <;> simp [hb1, hb2]

/-- Witness for C1 at a concrete store: two extends of `[5]` and `[7]`
under key 1 yield `get 1 = some [5, 7]`. -/
theorem kv_extend_roundtrip_witness :
    ∃ st1 st2,
      KVDatabase.extend exSer exDeser KVDatabase.newDisk [(1, [5])] = .ok st1 ∧
      KVDatabase.extend exSer exDeser st1 [(1, [7])] = .ok st2 ∧
      KVDatabase.get exDeser st2 1 = .ok (some [5, 7]) := by
  have h := kv_extend_roundtrip exSer exDeser exSer_roundtrip
    [(1, [5])] [(1, [7])] (by simp) (by simp) 1
  simpa [lookupKV] using h

/-- C2: KV store insert overwrite semantics.  After two `insert` batches
on a fresh store, `get k` returns the second batch's value when `k` is in
it, otherwise the first batch's value, otherwise `none`. -/
theorem kv_insert_overwrite {K V : Type} [DecidableEq K]
    (ser : V → List Nat) (deser : List Nat → Option V)
    (hrt : ∀ v, deser (ser v) = some v)
    (M1 M2 : List (K × V))
    (h1 : (M1.map Prod.fst).Nodup) (h2 : (M2.map Prod.fst).Nodup) (k : K) :
    ∃ st1 st2,
      KVDatabase.insert ser KVDatabase.newDisk M1 = .ok st1 ∧
      KVDatabase.insert ser st1 M2 = .ok st2 ∧
      KVDatabase.get deser st2 k = .ok
        (match lookupKV M2 k with
         | some v => some v
         | none => lookupKV M1 k) := by
  obtain ⟨st1, hrun1, hinv1⟩ :=
    KVDatabase.insert_spec ser deser (KVDatabase.storeInv_new deser) hrt M1 h1
  obtain ⟨st2, hrun2, hinv2⟩ :=
    KVDatabase.insert_spec ser deser hinv1 hrt M2 h2
  refine ⟨st1, st2, hrun1, hrun2, ?_⟩
  rw [KVDatabase.get_spec hinv2 k]
  congr 1
  unfold insertMap
  rcases hb2 : lookupKV M2 k with _ | v2 <;>
    rcases hb1 : lookupKV M1 k with _ | v1 <;> simp [hb1, hb2]

/-- Witness for C2 at a concrete store: `insert {1 ↦ 5, 2 ↦ 6}` then
`insert {1 ↦ 7}` gives `get 1 = some 7` and `get 2 = some 6`. -/
theorem kv_insert_overwrite_witness :
    (∃ st1 st2,
      KVDatabase.insert exSerNat KVDatabase.newDisk [(1, 5), (2, 6)] = .ok st1 ∧
      KVDatabase.insert exSerNat st1 [(1, 7)] = .ok st2 ∧
      KVDatabase.get exDeserNat st2 1 = .ok (some 7)) ∧
    (∃ st1 st2,
      KVDatabase.insert exSerNat KVDatabase.newDisk [(1, 5), (2, 6)] = .ok st1 ∧
      KVDatabase.insert exSerNat st1 [(1, 7)] = .ok st2 ∧
      KVDatabase.get exDeserNat st2 2 = .ok (some 6)) := by
  constructor
  · have h := kv_insert_overwrite exSerNat exDeserNat exSerNat_roundtrip
      [(1, 5), (2, 6)] [(1, 7)] (by simp) (by simp) 1
    simpa [lookupKV] using h
  · have h := kv_insert_overwrite exSerNat exDeserNat exSerNat_roundtrip
      [(1, 5), (2, 6)] [(1, 7)] (by simp) (by simp) 2
    simpa [lookupKV] using h

/-- C3: KV store persistence round-trip.  After `new` and `extend M`, the
pair of files the store leaves behind reopens (`from`) to the same state,
and `get` on that state agrees with `M` on every key of `M` and returns
`none` on every other key. -/
theorem kv_persistence_roundtrip {K T : Type} [DecidableEq K]
    (ser : List T → List Nat) (deser : List Nat → Option (List T))
    (serM : List (K × KVDatabase.SeekPos) → List Nat)
    (deserM : List Nat → Option (List (K × KVDatabase.SeekPos)))
    (hrt : ∀ v, deser (ser v) = some v)
    (hrtM : ∀ m, deserM (serM m) = some m)
    (M : List (K × List T)) (hM : (M.map Prod.fst).Nodup) :
    ∃ st1,
      KVDatabase.extend ser deser KVDatabase.newDisk M = .ok st1 ∧
      KVDatabase.fromDisk deserM (KVDatabase.storeFiles serM st1) = .ok st1 ∧
      ∀ k, KVDatabase.get deser st1 k = .ok (lookupKV M k) := by
  obtain ⟨st1, hrun1, hinv1⟩ :=
    KVDatabase.extend_spec ser deser (KVDatabase.storeInv_new deser) hrt M hM
  refine ⟨st1, hrun1, ?_, ?_⟩
  · simp [KVDatabase.fromDisk, KVDatabase.storeFiles, hrtM]
  · intro k
    rw [KVDatabase.get_spec hinv1 k]
    congr 1
    unfold extendMap
    rcases hb : lookupKV M k with _ | v <;> simp [hb]

/-- Witness for C3 at a concrete store: extend `{3 ↦ [9, 8]}` on a fresh
store, reopen from its files, read key 3 back and miss key 4. -/
theorem kv_persistence_roundtrip_witness :
    ∃ st1,
      KVDatabase.extend exSer exDeser KVDatabase.newDisk [(3, [9, 8])] = .ok st1 ∧
      KVDatabase.fromDisk exDeserMan (KVDatabase.storeFiles exSerMan st1) = .ok st1 ∧
      KVDatabase.get exDeser st1 3 = .ok (some [9, 8]) ∧
      KVDatabase.get exDeser st1 4 = .ok none := by
  obtain ⟨st1, hrun, hfrom, hget⟩ :=
    kv_persistence_roundtrip exSer exDeser exSerMan exDeserMan
      exSer_roundtrip exSerMan_roundtrip [(3, [9, 8])] (by simp)
  refine ⟨st1, hrun, hfrom, ?_, ?_⟩
  · simpa [lookupKV] using hget 3
  · simpa [lookupKV] using hget 4

theorem sortInsert_perm {α : Type} (le : α → α → Bool) (x : α) (l : List α) :
    (sortInsert le x l).Perm (x :: l) := by
  induction l with
  | nil => exact List.Perm.refl _
  | cons y ys ih =>
    by_cases h : le x y
    · simp [sortInsert, h]
    · simp only [sortInsert, if_neg h]
      exact (ih.cons y).trans (List.Perm.swap x y ys)

theorem sortByCmp_perm {α : Type} (le : α → α → Bool) (l : List α) :
    (sortByCmp le l).Perm l := by
  induction l with
  | nil => exact List.Perm.refl _
  | cons x xs ih =>
    have : sortByCmp le (x :: xs) = sortInsert le x (sortByCmp le xs) := rfl
    rw [this]
    exact (sortInsert_perm le x _).trans (ih.cons x)

theorem pairwise_sortInsert {α : Type} (le : α → α → Bool) (P : α → Prop)
    (htot : ∀ a b, P a → P b → le a b = true ∨ le b a = true)
    (htrans : ∀ a b c, P a → P b → P c →
      le a b = true → le b c = true → le a c = true) :
    ∀ {x : α} {l : List α}, P x → (∀ z ∈ l, P z) →
      l.Pairwise (fun a b => le a b = true) →
      (sortInsert le x l).Pairwise (fun a b => le a b = true) := by
  intro x l
  induction l with
  | nil =>
    intro _ _ _
    simp [sortInsert]
  | cons y ys ih =>
    intro hx hl hs
    rcases List.pairwise_cons.mp hs with ⟨hy, hys⟩
    by_cases h : le x y
    · simp only [sortInsert, if_pos h]
      refine List.pairwise_cons.mpr ⟨?_, hs⟩
      intro z hz
      rcases List.mem_cons.mp hz with rfl | hz
      · exact h
      · exact htrans x y z hx (hl y (List.mem_cons_self _ _))
          (hl z (List.mem_cons_of_mem _ hz)) h (hy z hz)
    · simp only [sortInsert, if_neg h]
      have hyx : le y x = true := by
        rcases htot x y hx (hl y (List.mem_cons_self _ _)) with h1 | h1
        · exact absurd h1 h
        · exact h1
      refine List.pairwise_cons.mpr ⟨?_, ?_⟩
      · intro z hz
        have hz2 : z = x ∨ z ∈ ys :=
          List.Perm.mem_iff (sortInsert_perm le x ys) |>.mp hz |> List.mem_cons.mp
        rcases hz2 with rfl | hz2
        · exact hyx
        · exact hy z hz2
      · exact ih hx (fun z hz => hl z (List.mem_cons_of_mem _ hz)) hys

theorem pairwise_sortByCmp {α : Type} (le : α → α → Bool) (P : α → Prop)
    (htot : ∀ a b, P a → P b → le a b = true ∨ le b a = true)
    (htrans : ∀ a b c, P a → P b → P c →
      le a b = true → le b c = true → le a c = true) :
    ∀ (l : List α), (∀ z ∈ l, P z) →
      (sortByCmp le l).Pairwise (fun a b => le a b = true) := by
  intro l
  induction l with
  | nil =>
    intro _
    simp [sortByCmp]
  | cons x xs ih =>
    intro hl
    have hstep : sortByCmp le (x :: xs) = sortInsert le x (sortByCmp le xs) := rfl
    rw [hstep]
    refine pairwise_sortInsert le P htot htrans
      (hl x (List.mem_cons_self _ _)) ?_
      (ih fun z hz => hl z (List.mem_cons_of_mem _ hz))
    intro z hz
    exact hl z (List.mem_cons_of_mem _
      ((sortByCmp_perm le xs).mem_iff.mp hz))

theorem leScore_num_iff {d1 d2 : Nat} {qa qb : ℚ} :
    leScore (d1, F64.num qa) (d2, F64.num qb) = true ↔ qb ≤ qa := by
  simp only [leScore, cmpScore, F64.partialCmp, Option.getD_some]
  rcases h : compare qb qa with _ | _ | _
  · simp only []
    have := compare_lt_iff_lt.mp h
    simp [le_of_lt this]
  · simp only []
    have := compare_eq_iff_eq.mp h
    simp [le_of_eq this]
  · simp only []
    have := compare_gt_iff_gt.mp h
    constructor
    · intro hfalse
      cases hfalse
    · intro hle
      exact absurd this (not_lt.mpr hle)

theorem leScore_total (a b : Nat × F64)
    (ha : a.2.isNumber = true) (hb : b.2.isNumber = true) :
    leScore a b = true ∨ leScore b a = true := by
  obtain ⟨d1, x⟩ := a
  obtain ⟨d2, y⟩ := b
  cases x <;> cases y <;> simp [F64.isNumber] at ha hb ⊢
  rename_i qa qb
  rw [leScore_num_iff, leScore_num_iff]
  exact le_total qb qa

theorem leScore_trans (a b c : Nat × F64)
    (ha : a.2.isNumber = true) (hb : b.2.isNumber = true)
    (hc : c.2.isNumber = true)
    (hab : leScore a b = true) (hbc : leScore b c = true) :
    leScore a c = true := by
  obtain ⟨d1, x⟩ := a
  obtain ⟨d2, y⟩ := b
  obtain ⟨d3, z⟩ := c
  cases x <;> cases y <;> cases z <;>
    simp [F64.isNumber] at ha hb hc ⊢ <;>
    rw [leScore_num_iff] at *
  · exact le_trans (by assumption) (by assumption)

theorem addScore_allNum {m : List (Nat × F64)} {d : Nat} {v : F64}
    (hm : ∀ p ∈ m, (Prod.snd p).isNumber = true) (hv : v.isNumber = true) :
    ∀ p ∈ addScore m d v, (Prod.snd p).isNumber = true := by
  induction m with
  | nil =>
    intro p hp
    rcases v with q | _
    · simp [addScore] at hp
      simp [hp, F64.add, F64.isNumber]
    · simp [F64.isNumber] at hv
  | cons e rest ih =>
    obtain ⟨d0, s⟩ := e
    intro p hp
    by_cases h : d0 = d
    · simp only [addScore, if_pos h] at hp
      rcases List.mem_cons.mp hp with rfl | hp2
      · have hs : s.isNumber = true := hm (d0, s) (List.mem_cons_self _ _)
        rcases s with q1 | _ <;> rcases v with q2 | _ <;>
          simp [F64.isNumber, F64.add] at hs hv ⊢
      · exact hm p (List.mem_cons_of_mem _ hp2)
    · simp only [addScore, if_neg h] at hp
      rcases List.mem_cons.mp hp with rfl | hp2
      · exact hm _ (List.mem_cons_self _ _)
      · exact ih (fun q hq => hm q (List.mem_cons_of_mem _ hq)) p hp2

theorem foldl_addScore_allNum {postings : List TermIndexQ}
    (hpost : ∀ p ∈ postings, p.tf_idf.isNumber = true) :
    ∀ (m : List (Nat × F64)), (∀ p ∈ m, (Prod.snd p).isNumber = true) →
      ∀ p ∈ postings.foldl (fun m2 p => addScore m2 p.doc_id p.tf_idf) m,
        (Prod.snd p).isNumber = true := by
  induction postings with
  | nil =>
    intro m hm p hp
    exact hm p hp
  | cons q rest ih =>
    intro m hm p hp
    simp only [List.foldl] at hp
    exact ih (fun r hr => hpost r (List.mem_cons_of_mem _ hr))
      (addScore m q.doc_id q.tf_idf)
      (addScore_allNum hm (hpost q (List.mem_cons_self _ _))) p hp

theorem scoreToken_allNum {db : List (String × List TermIndexQ)}
    (hdb : ∀ kv ∈ db, ∀ p ∈ kv.2, p.tf_idf.isNumber = true)
    {m : List (Nat × F64)} (hm : ∀ p ∈ m, (Prod.snd p).isNumber = true)
    (token : String) :
    ∀ p ∈ scoreToken db m token, (Prod.snd p).isNumber = true := by
  unfold scoreToken
  rcases hlk : lookupKV db token with _ | postings
  · exact hm
  · exact foldl_addScore_allNum
      (hdb (token, postings) (lookupKV_mem hlk)) m hm

theorem accumScores_allNum {stem : String → String}
    {db : List (String × List TermIndexQ)} {query : String}
    (hdb : ∀ kv ∈ db, ∀ p ∈ kv.2, p.tf_idf.isNumber = true) :
    ∀ p ∈ accumScores stem db query, (Prod.snd p).isNumber = true := by
  unfold accumScores
  generalize Tokenizer.tokenize stem query = tokens
  suffices h : ∀ (tokens : List String) (m : List (Nat × F64)),
      (∀ p ∈ m, (Prod.snd p).isNumber = true) →
      ∀ p ∈ tokens.foldl (scoreToken db) m, (Prod.snd p).isNumber = true by
    exact h tokens [] (by simp)
  intro tokens
  induction tokens with
  | nil =>
    intro m hm p hp
    exact hm p hp
  | cons t ts ih =>
    intro m hm p hp
    simp only [List.foldl] at hp
    exact ih (scoreToken db m t) (scoreToken_allNum hdb hm t) p hp

theorem addScore_keys (m : List (Nat × F64)) (d : Nat) (v : F64) :
    (addScore m d v).map Prod.fst =
      if d ∈ m.map Prod.fst then m.map Prod.fst
      else m.map Prod.fst ++ [d] := by
  induction m with
  | nil => simp [addScore]
  | cons e rest ih =>
    obtain ⟨d0, s⟩ := e
    by_cases h : d0 = d
    · subst h
      simp [addScore]
    · simp only [addScore, if_neg h, List.map_cons, ih]
      by_cases hd : d ∈ rest.map Prod.fst
      · simp [hd, Ne.symm h]
      · simp [hd, Ne.symm h]

theorem addScore_keys_nodup {m : List (Nat × F64)} {d : Nat} {v : F64}
    (hm : (m.map Prod.fst).Nodup) : ((addScore m d v).map Prod.fst).Nodup := by
  rw [addScore_keys]
  by_cases hd : d ∈ m.map Prod.fst
  · rw [if_pos hd]
    exact hm
  · rw [if_neg hd]
    refine List.Nodup.append hm (List.nodup_singleton d) ?_
    intro a ha had
    rw [List.mem_singleton] at had
    subst had
    exact hd ha

theorem foldl_addScore_keys_nodup (postings : List TermIndexQ) :
    ∀ (m : List (Nat × F64)), (m.map Prod.fst).Nodup →
      (((postings.foldl (fun m2 p => addScore m2 p.doc_id p.tf_idf) m)).map
        Prod.fst).Nodup := by
  induction postings with
  | nil =>
    intro m hm
    exact hm
  | cons q rest ih =>
    intro m hm
    simp only [List.foldl]
    exact ih _ (addScore_keys_nodup hm)

theorem scoreToken_keys_nodup {db : List (String × List TermIndexQ)}
    {m : List (Nat × F64)} (hm : (m.map Prod.fst).Nodup) (token : String) :
    ((scoreToken db m token).map Prod.fst).Nodup := by
  unfold scoreToken
  rcases lookupKV db token with _ | postings
  · exact hm
  · exact foldl_addScore_keys_nodup postings m hm

theorem accumScores_keys_nodup (stem : String → String)
    (db : List (String × List TermIndexQ)) (query : String) :
    ((accumScores stem db query).map Prod.fst).Nodup := by
  unfold accumScores
  generalize Tokenizer.tokenize stem query = tokens
  suffices h : ∀ (tokens : List String) (m : List (Nat × F64)),
      (m.map Prod.fst).Nodup →
      ((tokens.foldl (scoreToken db) m).map Prod.fst).Nodup by
    exact h tokens [] (by simp)
  intro tokens
  induction tokens with
  | nil =>
    intro m hm
    exact hm
  | cons t ts ih =>
    intro m hm
    simp only [List.foldl]
    exact ih _ (scoreToken_keys_nodup hm t)

theorem resolveDocs_ok_scores {urlMap : List (Nat × DocR)} :
    ∀ {pairs : List (Nat × F64)} {rs : List SearchResultF},
      resolveDocs urlMap pairs = .ok rs →
      rs.map SearchResultF.score = pairs.map Prod.snd := by
  intro pairs
  induction pairs with
  | nil =>
    intro rs h
    injection h with h
    subst h
    rfl
  | cons e rest ih =>
    obtain ⟨d, s⟩ := e
    intro rs h
    simp only [resolveDocs] at h
    rcases hlk : lookupKV urlMap d with _ | doc
    · rw [hlk] at h
      cases h
    · rw [hlk] at h
      rcases hrec : resolveDocs urlMap rest with e2 | rs2
      · rw [hrec] at h
        cases h
      · rw [hrec] at h
        injection h with h
        subst h
        simp [ih hrec]

theorem resolveDocs_ok_of_all {urlMap : List (Nat × DocR)} :
    ∀ (pairs : List (Nat × F64)),
      (∀ p ∈ pairs, (lookupKV urlMap p.1).isSome = true) →
      ∃ rs, resolveDocs urlMap pairs = .ok rs := by
  intro pairs
  induction pairs with
  | nil =>
    intro _
    exact ⟨[], rfl⟩
  | cons e rest ih =>
    obtain ⟨d, s⟩ := e
    intro hall
    have hd := hall (d, s) (List.mem_cons_self _ _)
    rcases hlk : lookupKV urlMap d with _ | doc
    · rw [hlk] at hd
      cases hd
    · obtain ⟨rs2, hrec⟩ := ih fun p hp => hall p (List.mem_cons_of_mem _ hp)
      exact ⟨⟨doc.url, s⟩ :: rs2, by simp [resolveDocs, hlk, hrec]⟩

theorem resolveDocs_err {urlMap : List (Nat × DocR)} :
    ∀ (pairs : List (Nat × F64)),
      (∃ p ∈ pairs, lookupKV urlMap p.1 = none) →
      resolveDocs urlMap pairs = .error (.generic "Document not found") := by
  intro pairs
  induction pairs with
  | nil =>
    rintro ⟨p, hp, _⟩
    cases hp
  | cons e rest ih =>
    obtain ⟨d, s⟩ := e
    rintro ⟨p, hp, hnone⟩
    rcases List.mem_cons.mp hp with rfl | hp2
    · simp [resolveDocs, hnone]
    · rcases hlk : lookupKV urlMap d with _ | doc
      · simp [resolveDocs, hlk]
      · have hrec := ih ⟨p, hp2, hnone⟩
        simp [resolveDocs, hlk, hrec]

/-- C4: the claim that the query engine's tokenization equals the
tokenization used during indexing fails on the code: the query engine
matches `\b\w+\b` runs (then lowercases and stems) while the index
builder splits bold/title/heading text on whitespace (and stems without
lowercasing) and runs body text through an external BERT word-piece
tokenizer.  On the input `"a.b"` the query side produces two tokens and
the index side one, whatever the stemmer does. -/
theorem tokenizer_mismatch (stem : String → String) :
    Tokenizer.tokenize stem "a.b" ≠ roleTokenize stem "a.b" := by
  intro h
  have hlen := congrArg List.length h
  simp only [Tokenizer.tokenize, roleTokenize, List.length_map] at hlen
  have h1 : (wordRuns "a.b").length = 2 := by decide
  have h2 : (splitWhitespace "a.b").length = 1 := by decide
  rw [h1, h2] at hlen
  exact absurd hlen (by decide)

/-- C5 (amended): when every stored score is a number (no NaN), the
result list of `search` is sorted in descending score order; the NaN
clause of the claim is not guaranteed by the code (see the
counterexample). -/
theorem search_sorted_descending (stem : String → String) (idx : SearchIndex)
    (query : String)
    (hnum : ∀ kv ∈ idx.db, ∀ p ∈ kv.2, p.tf_idf.isNumber = true) :
    List.Pairwise F64.ge ((searchPairs stem idx query).map Prod.snd) ∧
    ∀ rs, searchF stem idx query = .ok rs →
      List.Pairwise F64.ge (rs.map SearchResultF.score) := by
  have hallacc : ∀ p ∈ accumScores stem idx.db query,
      (Prod.snd p).isNumber = true := accumScores_allNum hnum
  have hallsorted : ∀ p ∈ searchPairs stem idx query,
      (Prod.snd p).isNumber = true := by
    intro p hp
    exact hallacc p ((sortByCmp_perm leScore _).mem_iff.mp hp)
  have hpw : (searchPairs stem idx query).Pairwise
      (fun a b => leScore a b = true) :=
    pairwise_sortByCmp leScore (fun p => (Prod.snd p).isNumber = true)
      leScore_total leScore_trans _ hallacc
  have hge : (searchPairs stem idx query).Pairwise
      (fun a b => F64.ge a.2 b.2) := by
    refine hpw.imp_of_mem ?_
    intro a b ha hb hab
    have hA := hallsorted a ha
    have hB := hallsorted b hb
    obtain ⟨d1, x⟩ := a
    obtain ⟨d2, y⟩ := b
    cases x <;> cases y <;> simp [F64.isNumber] at hA hB
    rename_i qa qb
    show qb ≤ qa
    exact leScore_num_iff.mp hab
  constructor
  · rw [List.pairwise_map]
    exact hge
  · intro rs hok
    have hscores := resolveDocs_ok_scores hok
    rw [List.pairwise_map, ← List.pairwise_map (f := SearchResultF.score),
      hscores, List.pairwise_map]
    exact hge

/-- Witness for C5's amended theorem on a NaN-free store. -/
theorem search_sorted_descending_witness :
    List.Pairwise F64.ge
      ((searchPairs (fun s => s) exNumIdx "a b").map Prod.snd) := by
  exact (search_sorted_descending (fun s => s) exNumIdx "a b"
    (by decide)).1

/-- C5 (counterexample): on a store holding a NaN score, `search` can
return the NaN-scored result first, not last — the comparator
`b.partial_cmp(&a).unwrap_or(Greater)` answers `Greater` for both
orientations of a NaN comparison, so NaN entries sort towards the front
under the stable-sort model. -/
theorem search_nan_not_at_end :
    searchF (fun s => s) exNanIdx "a b" =
      .ok [⟨"u1", F64.nan⟩, ⟨"u0", F64.num 1⟩] ∧
    nanAtEnd (([⟨"u1", F64.nan⟩, ⟨"u0", F64.num 1⟩] : List SearchResultF).map
      SearchResultF.score) = false := by
  constructor
  · have htok : Tokenizer.tokenize (fun s => s) "a b" = ["a", "b"] := by decide
    simp [searchF, searchPairs, accumScores, scoreToken, htok, exNanIdx,
      lookupKV, addScore, sortByCmp, sortInsert, leScore, cmpScore,
      F64.partialCmp, F64.add, resolveDocs]
  · decide

/-- C6: the query-time corruption check.  If some accumulated doc-id is
absent from the doc-map store, the whole query fails with the
`Generic "Document not found"` error; if every accumulated doc-id
resolves, `search` returns `Ok` with exactly one result per accumulated
doc-id. -/
theorem search_corruption_check (stem : String → String) (idx : SearchIndex)
    (query : String) :
    ((∃ p ∈ searchPairs stem idx query, lookupKV idx.url_map p.1 = none) →
      searchF stem idx query = .error (.generic "Document not found")) ∧
    ((∀ p ∈ searchPairs stem idx query,
        (lookupKV idx.url_map p.1).isSome = true) →
      ∃ rs, searchF stem idx query = .ok rs ∧
        rs.length = (searchPairs stem idx query).length) := by
  constructor
  · intro hex
    exact resolveDocs_err _ hex
  · intro hall
    obtain ⟨rs, hok⟩ := resolveDocs_ok_of_all _ hall
    refine ⟨rs, hok, ?_⟩
    have hscores := resolveDocs_ok_scores hok
    have hlen := congrArg List.length hscores
    simpa using hlen

/-- Witness for C6: the corrupted store errors, the healthy one returns
one result per accumulated doc-id. -/
theorem search_corruption_check_witness :
    searchF (fun s => s) exIdxBad "a" =
      .error (.generic "Document not found") ∧
    ∃ rs, searchF (fun s => s) exIdxOk "a" = .ok rs ∧
      rs.length = (searchPairs (fun s => s) exIdxOk "a").length := by
  constructor
  · apply (search_corruption_check (fun s => s) exIdxBad "a").1
    refine ⟨(0, F64.nan), ?_, rfl⟩
    decide
  · exact (search_corruption_check (fun s => s) exIdxOk "a").2 (by decide)

/-- C10: at most one result per document.  The doc-id column of the
sorted `(doc_id, score)` list is duplicate-free — repeated hits on a
document are folded into one summed entry by the accumulator — and
`search` emits exactly one result per entry of that list. -/
theorem search_docid_unique (stem : String → String) (idx : SearchIndex)
    (query : String) :
    ((searchPairs stem idx query).map Prod.fst).Nodup ∧
    ∀ rs, searchF stem idx query = .ok rs →
      rs.length = (searchPairs stem idx query).length := by
  constructor
  · have hacc := accumScores_keys_nodup stem idx.db query
    have hperm := (sortByCmp_perm leScore
      (accumScores stem idx.db query)).map Prod.fst
    exact hperm.nodup_iff.mpr hacc
  · intro rs hok
    have hscores := resolveDocs_ok_scores hok
    have hlen := congrArg List.length hscores
    simpa using hlen

/-- Witness for C10: the query `"a a"` hits document 0 twice but yields a
single accumulated doc-id and a single result. -/
theorem search_docid_unique_witness :
    ((searchPairs (fun s => s) exIdxOk "a a").map Prod.fst).Nodup ∧
    ([⟨"u0", F64.nan⟩] : List SearchResultF).length =
      (searchPairs (fun s => s) exIdxOk "a a").length := by
  refine ⟨(search_docid_unique (fun s => s) exIdxOk "a a").1, ?_⟩
  exact (search_docid_unique (fun s => s) exIdxOk "a a").2 _ rfl

theorem tf_idf_core {tf df n : ℝ} (h1 : 1 ≤ tf) (h2 : 1 ≤ df) (h3 : df ≤ n) :
    0 ≤ calculate_tf_idf tf df n ∧ (calculate_tf_idf tf df n = 0 ↔ df = n) := by
  have hb : (1 : ℝ) < 10 := by norm_num
  have hdf0 : (0 : ℝ) < df := by linarith
  have hquot : 1 ≤ n / df := (one_le_div hdf0).mpr h3
  have hA : 0 ≤ Real.logb 10 tf := Real.logb_nonneg hb h1
  have hB : 0 ≤ Real.logb 10 (n / df) := Real.logb_nonneg hb hquot
  have hApos : 0 < 1 + Real.logb 10 tf := by linarith
  refine ⟨mul_nonneg (le_of_lt hApos) hB, ?_, ?_⟩
  · intro h0
    rcases mul_eq_zero.mp h0 with h | h
    · linarith
    · have hone : n / df = 1 := by
        rcases Real.logb_eq_zero.mp h with h10 | h10 | h10 | h10 | h10 | h10
        · norm_num at h10
        · norm_num at h10
        · norm_num at h10
        · linarith
        · exact h10
        · linarith
      have := (div_eq_one_iff_eq hdf0.ne').mp hone
      linarith
  · intro h
    subst h
    have : df / df = 1 := div_self hdf0.ne'
    simp [calculate_tf_idf, this]

/-- C7: TF-IDF sign and zero characterization.  For every posting of a
term's rescored list — under the preconditions that each first-pass
`tf` is at least 1 and the term's document frequency (the list length)
is at most the total document count — the score
`(1 + log10 tf) * log10 (n / df)` is nonnegative and is zero exactly
when `df = n`; and every posting is retained by the rescoring pass. -/
theorem tf_idf_sign_zero (l : List TempTermIndexR) (n : Nat) (p : TermIndexR)
    (hp : p ∈ scoreList l n) (htf : ∀ q ∈ l, 1 ≤ q.tf)
    (hn : l.length ≤ n) :
    (0 ≤ p.tf_idf ∧ (p.tf_idf = 0 ↔ l.length = n)) ∧
    (scoreList l n).length = l.length := by
  obtain ⟨q, hq, hpq⟩ := List.mem_map.mp hp
  have hne : l ≠ [] := by
    intro h
    subst h
    cases hq
  have hlen1 : 1 ≤ l.length := List.length_pos.mpr hne
  have h1 : (1 : ℝ) ≤ (q.tf : ℝ) := by
    exact_mod_cast htf q hq
  have h2 : (1 : ℝ) ≤ (l.length : ℝ) := by
    exact_mod_cast hlen1
  have h3 : (l.length : ℝ) ≤ (n : ℝ) := by
    exact_mod_cast hn
  obtain ⟨hnonneg, hzero⟩ := tf_idf_core h1 h2 h3
  refine ⟨⟨?_, ?_⟩, by simp [scoreList]⟩
  · rw [← hpq]
    exact hnonneg
  · rw [← hpq]
    constructor
    · intro h
      have := hzero.mp h
      exact_mod_cast this
    · intro h
      apply hzero.mpr
      exact_mod_cast h

/-- Witness for C7 at a single-document index: one posting with `tf = 1`,
`df = 1`, `n = 1` scores exactly zero (and is retained). -/
theorem tf_idf_sign_zero_witness :
    (0 ≤ (TermIndexR.mk 0 (calculate_tf_idf ((1 : Nat) : ℝ)
        (([⟨0, 1⟩] : List TempTermIndexR).length : ℝ) ((1 : Nat) : ℝ))).tf_idf ∧
      ((TermIndexR.mk 0 (calculate_tf_idf ((1 : Nat) : ℝ)
        (([⟨0, 1⟩] : List TempTermIndexR).length : ℝ) ((1 : Nat) : ℝ))).tf_idf = 0 ↔
        ([⟨0, 1⟩] : List TempTermIndexR).length = 1)) ∧
    (scoreList [⟨0, 1⟩] 1).length = ([⟨0, 1⟩] : List TempTermIndexR).length := by
  exact tf_idf_sign_zero [⟨0, 1⟩] 1 _
    (by simp [scoreList])
    (by intro q hq; simp at hq; simp [hq])
    (by simp)

theorem lookupKV_bumpCount (m : List (String × Nat)) (w : String) (inc : Nat)
    (w0 : String) :
    lookupKV (bumpCount m w inc) w0 =
      if w0 = w then some ((lookupKV m w0).getD 0 + inc)
      else lookupKV m w0 := by
  induction m with
  | nil =>
    by_cases h : w0 = w
    · subst h
      simp [bumpCount, lookupKV]
    · have hs : ¬w = w0 := Ne.symm h
      simp [bumpCount, lookupKV, h, hs]
  | cons e rest ih =>
    obtain ⟨w1, c⟩ := e
    by_cases h1 : w1 = w
    · simp only [bumpCount, if_pos h1]
      by_cases h0 : w1 = w0
      · have hww0 : w0 = w := h0.symm.trans h1
        simp [lookupKV, h0, hww0]
      · have hw0w : ¬w0 = w := by
          intro hh
          exact h0 (h1.trans hh.symm)
        simp [lookupKV, h0, hw0w]
    · simp only [bumpCount, if_neg h1]
      by_cases h0 : w1 = w0
      · have hw0w : ¬w0 = w := by
          intro hh
          exact h1 (h0.trans hh)
        simp [lookupKV, h0, hw0w]
      · simp [lookupKV, h0, ih]

theorem foldl_bumpCount_getD (inc : Nat) :
    ∀ (l : List String) (m : List (String × Nat)) (w0 : String),
      (lookupKV (l.foldl (fun m2 t => bumpCount m2 t inc) m) w0).getD 0 =
        (lookupKV m w0).getD 0 + inc * l.count w0 := by
  intro l
  induction l with
  | nil =>
    intro m w0
    simp
  | cons t ts ih =>
    intro m w0
    simp only [List.foldl]
    rw [ih, lookupKV_bumpCount]
    by_cases h : w0 = t
    · subst h
      rw [if_pos rfl]
      simp only [Option.getD_some, List.count_cons, beq_self_eq_true, if_true]
      ring
    · rw [if_neg h]
      have hc : (t :: ts).count w0 = ts.count w0 := by
        simp [List.count_cons, h]
      rw [hc]

theorem foldl_bumpCount_none (inc : Nat) :
    ∀ (l : List String) (m : List (String × Nat)) (w0 : String),
      lookupKV (l.foldl (fun m2 t => bumpCount m2 t inc) m) w0 = none ↔
        (lookupKV m w0 = none ∧ w0 ∉ l) := by
  intro l
  induction l with
  | nil =>
    intro m w0
    simp
  | cons t ts ih =>
    intro m w0
    simp only [List.foldl]
    rw [ih, lookupKV_bumpCount]
    by_cases h : w0 = t
    · subst h
      simp
    · simp [h]

theorem wordCount_lookup (body bold title header : List String) (t : String) :
    lookupKV (wordCount body bold title header) t =
      if t ∈ body ∨ t ∈ bold ∨ t ∈ title ∨ t ∈ header then
        some (body.count t + (BOLD_WEIGHT - 1) * bold.count t +
          (TITLE_WEIGHT - 1) * title.count t +
          (HEADER_WEIGHT - 1) * header.count t)
      else none := by
  have hgd : (lookupKV (wordCount body bold title header) t).getD 0 =
      body.count t + (BOLD_WEIGHT - 1) * bold.count t +
        (TITLE_WEIGHT - 1) * title.count t +
        (HEADER_WEIGHT - 1) * header.count t := by
    unfold wordCount
    rw [foldl_bumpCount_getD, foldl_bumpCount_getD, foldl_bumpCount_getD,
      foldl_bumpCount_getD]
    simp [lookupKV]
  have hnone : lookupKV (wordCount body bold title header) t = none ↔
      (t ∉ body ∧ t ∉ bold ∧ t ∉ title ∧ t ∉ header) := by
    unfold wordCount
    rw [foldl_bumpCount_none, foldl_bumpCount_none, foldl_bumpCount_none,
      foldl_bumpCount_none]
    simp [lookupKV]
    tauto
  by_cases hmem : t ∈ body ∨ t ∈ bold ∨ t ∈ title ∨ t ∈ header
  · rw [if_pos hmem]
    rcases hlk : lookupKV (wordCount body bold title header) t with _ | v
    · rw [hnone] at hlk
      tauto
    · rw [hlk] at hgd
      simp only [Option.getD_some] at hgd
      rw [hgd]
  · rw [if_neg hmem, hnone]
    tauto

/-- C8: document-text weighting.  In the `word_count` map of one
document, a term occurring exactly once in body text (and under no other
role) counts 1, and a term occurring once in the title and once in the
body — so that the body stream, which includes the title text, carries it
twice — counts `2 + (10 - 1) = 11`, per the weights body 1, bold 3,
heading 5, title 10 accumulated as `(WEIGHT - 1)` additions on top of the
body count. -/
theorem word_count_weighting (bert : String → List String)
    (stem : String → String) (allText boldText titleText headerText : String)
    (t : String) :
    (((bert allText).count t = 1 ∧ t ∉ roleTokenize stem boldText ∧
        t ∉ roleTokenize stem titleText ∧ t ∉ roleTokenize stem headerText) →
      lookupKV (docWordCount bert stem allText boldText titleText headerText) t
        = some 1) ∧
    (((bert allText).count t = 2 ∧ t ∉ roleTokenize stem boldText ∧
        (roleTokenize stem titleText).count t = 1 ∧
        t ∉ roleTokenize stem headerText) →
      lookupKV (docWordCount bert stem allText boldText titleText headerText) t
        = some 11) := by
  constructor
  · rintro ⟨h1, h2, h3, h4⟩
    rw [docWordCount, wordCount_lookup]
    have hmem : t ∈ bert allText := by
      have hpos : 0 < (bert allText).count t := by omega
      exact List.count_pos_iff.mp hpos
    rw [if_pos (Or.inl hmem)]
    rw [h1, List.count_eq_zero_of_not_mem h2, List.count_eq_zero_of_not_mem h3,
      List.count_eq_zero_of_not_mem h4]
    simp [BOLD_WEIGHT, TITLE_WEIGHT, HEADER_WEIGHT]
  · rintro ⟨h1, h2, h3, h4⟩
    rw [docWordCount, wordCount_lookup]
    have hmem : t ∈ bert allText := by
      have hpos : 0 < (bert allText).count t := by omega
      exact List.count_pos_iff.mp hpos
    rw [if_pos (Or.inl hmem)]
    rw [h1, List.count_eq_zero_of_not_mem h2, h3,
      List.count_eq_zero_of_not_mem h4]
    simp [BOLD_WEIGHT, TITLE_WEIGHT, HEADER_WEIGHT]

/-- Witness for C8: a body-only term counts 1; a term once in the title
and once in the body counts 11. -/
theorem word_count_weighting_witness :
    lookupKV (docWordCount (fun s => splitWhitespace s) (fun s => s)
      "x" "" "" "") "x" = some 1 ∧
    lookupKV (docWordCount (fun s => splitWhitespace s) (fun s => s)
      "x x" "" "x" "") "x" = some 11 := by
  constructor
  · exact (word_count_weighting (fun s => splitWhitespace s) (fun s => s)
      "x" "" "" "" "x").1 (by decide)
  · exact (word_count_weighting (fun s => splitWhitespace s) (fun s => s)
      "x x" "" "x" "" "x").2 (by decide)

theorem lookupKV_pushPosting (inv : List (String × List TempTermIndexR))
    (w : String) (p : TempTermIndexR) (w0 : String) :
    lookupKV (pushPosting inv w p) w0 =
      if w0 = w then some ((lookupKV inv w0).getD [] ++ [p])
      else lookupKV inv w0 := by
  induction inv with
  | nil =>
    by_cases h : w0 = w
    · subst h
      simp [pushPosting, lookupKV]
    · have hs : ¬w = w0 := Ne.symm h
      simp [pushPosting, lookupKV, h, hs]
  | cons e rest ih =>
    obtain ⟨w1, l⟩ := e
    by_cases h1 : w1 = w
    · simp only [pushPosting, if_pos h1]
      by_cases h0 : w1 = w0
      · have hww0 : w0 = w := h0.symm.trans h1
        simp [lookupKV, h0, hww0]
      · have hw0w : ¬w0 = w := by
          intro hh
          exact h0 (h1.trans hh.symm)
        simp [lookupKV, h0, hw0w]
    · simp only [pushPosting, if_neg h1]
      by_cases h0 : w1 = w0
      · have hw0w : ¬w0 = w := by
          intro hh
          exact h1 (h0.trans hh)
        simp [lookupKV, h0, hw0w]
      · simp [lookupKV, h0, ih]

theorem pushPosting_keys (inv : List (String × List TempTermIndexR))
    (w : String) (p : TempTermIndexR) :
    (pushPosting inv w p).map Prod.fst =
      if w ∈ inv.map Prod.fst then inv.map Prod.fst
      else inv.map Prod.fst ++ [w] := by
  induction inv with
  | nil => simp [pushPosting]
  | cons e rest ih =>
    obtain ⟨w1, l⟩ := e
    by_cases h : w1 = w
    · subst h
      simp [pushPosting]
    · simp only [pushPosting, if_neg h, List.map_cons, ih]
      by_cases hd : w ∈ rest.map Prod.fst
      · simp [hd, Ne.symm h]
      · simp [hd, Ne.symm h]

theorem pushPosting_keys_nodup {inv : List (String × List TempTermIndexR)}
    {w : String} {p : TempTermIndexR}
    (hm : (inv.map Prod.fst).Nodup) :
    ((pushPosting inv w p).map Prod.fst).Nodup := by
  rw [pushPosting_keys]
  by_cases hd : w ∈ inv.map Prod.fst
  · rw [if_pos hd]
    exact hm
  · rw [if_neg hd]
    refine List.Nodup.append hm (List.nodup_singleton w) ?_
    intro a ha had
    rw [List.mem_singleton] at had
    subst had
    exact hd ha

theorem pushDoc_aux (d lo : Nat) (hlod : lo ≤ d) :
    ∀ (wc : List (String × Nat)) (S : List String)
      (inv : List (String × List TempTermIndexR)),
      (S ++ wc.map Prod.fst).Nodup →
      ((inv.map Prod.fst).Nodup ∧
        ∀ w lst, lookupKV inv w = some lst →
          (lst.map TempTermIndexR.doc_id).Nodup ∧
          ∀ p ∈ lst, lo ≤ p.doc_id ∧ p.doc_id ≤ d ∧ (p.doc_id = d → w ∈ S)) →
      (((wc.foldl (fun inv2 e => pushPosting inv2 e.1 ⟨d, e.2⟩) inv).map
          Prod.fst).Nodup ∧
        ∀ w lst,
          lookupKV (wc.foldl (fun inv2 e => pushPosting inv2 e.1 ⟨d, e.2⟩) inv)
            w = some lst →
          (lst.map TempTermIndexR.doc_id).Nodup ∧
          ∀ p ∈ lst, lo ≤ p.doc_id ∧ p.doc_id ≤ d ∧
            (p.doc_id = d → w ∈ S ++ wc.map Prod.fst)) := by
  intro wc
  induction wc with
  | nil =>
    intro S inv hS hpre
    refine ⟨hpre.1, ?_⟩
    intro w lst hl
    obtain ⟨h1, h2⟩ := hpre.2 w lst hl
    exact ⟨h1, fun p hp => by simpa using h2 p hp⟩
  | cons e rest ih =>
    obtain ⟨w, c⟩ := e
    intro S inv hS hpre
    simp only [List.foldl]
    have hSassoc : (S ++ ((w, c) :: rest).map Prod.fst) =
        ((S ++ [w]) ++ rest.map Prod.fst) := by
      simp
    rw [hSassoc] at hS
    have hwS : w ∉ S := by
      have hnd := hS
      rw [List.append_assoc] at hnd
      have hdisj := List.disjoint_of_nodup_append hnd
      intro hw
      exact hdisj hw (by simp)
    have hpre2 : ((pushPosting inv w ⟨d, c⟩).map Prod.fst).Nodup ∧
        ∀ w2 lst, lookupKV (pushPosting inv w ⟨d, c⟩) w2 = some lst →
          (lst.map TempTermIndexR.doc_id).Nodup ∧
          ∀ p ∈ lst, lo ≤ p.doc_id ∧ p.doc_id ≤ d ∧
            (p.doc_id = d → w2 ∈ S ++ [w]) := by
      refine ⟨pushPosting_keys_nodup hpre.1, ?_⟩
      intro w2 lst hl
      rw [lookupKV_pushPosting] at hl
      by_cases h : w2 = w
      · rw [if_pos h] at hl
        injection hl with hl
        subst hl
        subst h
        rcases hold : lookupKV inv w2 with _ | old
        · simp only [hold, Option.getD_none, List.nil_append]
          refine ⟨by simp, ?_⟩
          intro p hp
          rw [List.mem_singleton] at hp
          subst hp
          exact ⟨hlod, le_refl d, fun _ => by simp⟩
        · obtain ⟨ho1, ho2⟩ := hpre.2 w2 old hold
          simp only [hold, Option.getD_some]
          constructor
          · rw [List.map_append]
            refine List.Nodup.append ho1 (by simp) ?_
            intro a ha hb
            simp only [List.map_cons, List.map_nil, List.mem_singleton] at hb
            subst hb
            obtain ⟨q, hq, hqa⟩ := List.mem_map.mp ha
            have := (ho2 q hq).2.2 hqa
            exact hwS this
          · intro p hp
            rcases List.mem_append.mp hp with hp | hp
            · obtain ⟨hp1, hp2, _⟩ := ho2 p hp
              exact ⟨hp1, hp2, fun _ => by simp⟩
            · rw [List.mem_singleton] at hp
              subst hp
              exact ⟨hlod, le_refl d, fun _ => by simp⟩
      · rw [if_neg h] at hl
        obtain ⟨h1, h2⟩ := hpre.2 w2 lst hl
        refine ⟨h1, ?_⟩
        intro p hp
        obtain ⟨hp1, hp2, hp3⟩ := h2 p hp
        exact ⟨hp1, hp2, fun hd2 => List.mem_append_left _ (hp3 hd2)⟩
    have := ih (S ++ [w]) (pushPosting inv w ⟨d, c⟩) hS hpre2
    refine ⟨this.1, ?_⟩
    intro w2 lst hl
    obtain ⟨h1, h2⟩ := this.2 w2 lst hl
    refine ⟨h1, ?_⟩
    intro p hp
    obtain ⟨hp1, hp2, hp3⟩ := h2 p hp
    refine ⟨hp1, hp2, fun hd2 => ?_⟩
    have := hp3 hd2
    rw [hSassoc]
    exact this

theorem pushDoc_spec {lo d : Nat} (hlod : lo ≤ d)
    {inv : List (String × List TempTermIndexR)} (hinv : InvOK lo d inv)
    {wc : List (String × Nat)} (hwc : (wc.map Prod.fst).Nodup) :
    InvOK lo (d + 1) (pushDoc inv d wc) := by
  have hpre : (inv.map Prod.fst).Nodup ∧
      ∀ w lst, lookupKV inv w = some lst →
        (lst.map TempTermIndexR.doc_id).Nodup ∧
        ∀ p ∈ lst, lo ≤ p.doc_id ∧ p.doc_id ≤ d ∧
          (p.doc_id = d → w ∈ ([] : List String)) := by
    refine ⟨hinv.1, ?_⟩
    intro w lst hl
    obtain ⟨h1, h2⟩ := hinv.2 w lst hl
    refine ⟨h1, ?_⟩
    intro p hp
    obtain ⟨hp1, hp2⟩ := h2 p hp
    exact ⟨hp1, by omega, fun hd2 => absurd hd2 (by omega)⟩
  have := pushDoc_aux d lo hlod wc [] inv (by simpa using hwc) hpre
  refine ⟨this.1, ?_⟩
  intro w lst hl
  obtain ⟨h1, h2⟩ := this.2 w lst hl
  refine ⟨h1, ?_⟩
  intro p hp
  obtain ⟨hp1, hp2, _⟩ := h2 p hp
  exact ⟨hp1, by omega⟩

theorem lookupKV_extendL_map {K T : Type} [DecidableEq K]
    (store : List (K × List T)) :
    ∀ (b : List (K × List T)) (k : K),
      lookupKV
        (b.map fun p =>
          (p.1,
            match lookupKV store p.1 with
            | some old => old ++ p.2
            | none => p.2)) k =
        match lookupKV b k with
        | some v =>
          some
            (match lookupKV store k with
             | some old => old ++ v
             | none => v)
        | none => none := by
  intro b
  induction b with
  | nil => simp [lookupKV]
  | cons p rest ih =>
    obtain ⟨k0, v0⟩ := p
    intro k
    by_cases h : k0 = k
    · subst h
      simp [lookupKV]
    · simp [lookupKV, h, ih]

theorem lookupKV_extendL {K T : Type} [DecidableEq K]
    (store batch : List (K × List T)) (k : K) :
    lookupKV (extendL store batch) k =
      match lookupKV batch k with
      | some v => some ((lookupKV store k).getD [] ++ v)
      | none => lookupKV store k := by
  by_cases hemp : batch.isEmpty
  · have hbe : batch = [] := by simpa [List.isEmpty_iff] using hemp
    subst hbe
    simp [extendL, lookupKV]
  · unfold extendL
    rw [if_neg hemp, lookupKV_append, lookupKV_filter_isNone,
      lookupKV_extendL_map]
    rcases hb : lookupKV batch k with _ | v
    · simp only [hb, Option.isNone_none, if_true]
      rcases lookupKV store k with _ | old <;> rfl
    · simp only [hb, Option.isNone_some, Bool.false_eq_true, if_false]
      rcases lookupKV store k with _ | old <;> rfl

theorem extendL_keys {K T : Type} [DecidableEq K]
    (store batch : List (K × List T)) :
    (extendL store batch).map Prod.fst =
      ((store.filter fun p => (lookupKV batch p.1).isNone).map Prod.fst) ++
        batch.map Prod.fst := by
  by_cases hemp : batch.isEmpty
  · have hbe : batch = [] := by simpa [List.isEmpty_iff] using hemp
    subst hbe
    simp [extendL, lookupKV, List.filter_eq_self]
  · unfold extendL
    rw [if_neg hemp]
    simp

theorem extendL_keys_nodup {K T : Type} [DecidableEq K]
    {store batch : List (K × List T)}
    (hs : (store.map Prod.fst).Nodup) (hb : (batch.map Prod.fst).Nodup) :
    ((extendL store batch).map Prod.fst).Nodup := by
  rw [extendL_keys]
  refine List.Nodup.append
    (((List.filter_sublist _).map Prod.fst).nodup hs) hb ?_
  intro k hk1 hk2
  obtain ⟨p, hp, hpk⟩ := List.mem_map.mp hk1
  have hpred := (List.mem_filter.mp hp).2
  rw [hpk] at hpred
  have hnone : lookupKV batch k = none := by
    simpa [Option.isNone_iff_eq_none] using hpred
  exact lookupKV_eq_none.mp hnone hk2

theorem extendL_storeOK {hi lo hi2 : Nat} (hh : hi ≤ lo) (hh2 : hi ≤ hi2)
    {db inv : List (String × List TempTermIndexR)}
    (hdb : StoreListOK hi db) (hinv : InvOK lo hi2 inv) :
    StoreListOK hi2 (extendL db inv) := by
  refine ⟨extendL_keys_nodup hdb.1 hinv.1, ?_⟩
  intro w lst hl
  rw [lookupKV_extendL] at hl
  rcases hb : lookupKV inv w with _ | v
  · rw [hb] at hl
    obtain ⟨h1, h2⟩ := hdb.2 w lst hl
    exact ⟨h1, fun p hp => lt_of_lt_of_le (h2 p hp) hh2⟩
  · rw [hb] at hl
    injection hl with hl
    subst hl
    obtain ⟨hv1, hv2⟩ := hinv.2 w v hb
    rcases hdbw : lookupKV db w with _ | old
    · simp only [Option.getD_none, List.nil_append]
      exact ⟨hv1, fun p hp => (hv2 p hp).2⟩
    · obtain ⟨ho1, ho2⟩ := hdb.2 w old hdbw
      simp only [Option.getD_some]
      constructor
      · rw [List.map_append]
        refine List.Nodup.append ho1 hv1 ?_
        intro a ha hav
        obtain ⟨q, hq, hqa⟩ := List.mem_map.mp ha
        obtain ⟨r, hr, hra⟩ := List.mem_map.mp hav
        have h1 := ho2 q hq
        have h2 := (hv2 r hr).1
        omega
      · intro p hp
        rcases List.mem_append.mp hp with hp | hp
        · have := ho2 p hp
          omega
        · exact (hv2 p hp).2

theorem invOK_nil (lo hi : Nat) : InvOK lo hi [] := by
  refine ⟨by simp, ?_⟩
  intro w lst h
  simp [lookupKV] at h

theorem storeListOK_nil (hi : Nat) : StoreListOK hi [] := by
  refine ⟨by simp, ?_⟩
  intro w lst h
  simp [lookupKV] at h

theorem buildGo_spec :
    ∀ (docs : List (List (String × Nat))) (docId : Nat)
      (db inv : List (String × List TempTermIndexR)) (lo : Nat),
      (∀ wc ∈ docs, (wc.map Prod.fst).Nodup) →
      StoreListOK lo db → InvOK lo docId inv → lo ≤ docId →
      StoreListOK (docId + docs.length) (buildGo docs docId db inv) := by
  intro docs
  induction docs with
  | nil =>
    intro docId db inv lo _ hdb hinv hlod
    simpa [buildGo] using extendL_storeOK (le_refl lo) hlod hdb hinv
  | cons wc rest ih =>
    intro docId db inv lo hdocs hdb hinv hlod
    have hinv2 : InvOK lo (docId + 1) (pushDoc inv docId wc) :=
      pushDoc_spec hlod hinv (hdocs wc (List.mem_cons_self _ _))
    have hlen : docId + (wc :: rest).length = (docId + 1) + rest.length := by
      simp
      omega
    rw [hlen]
    simp only [buildGo]
    by_cases hmod : docId % 10000 = 0
    · rw [if_pos hmod]
      have hdb2 : StoreListOK (docId + 1) (extendL db (pushDoc inv docId wc)) :=
        extendL_storeOK (le_refl lo) (by omega) hdb hinv2
      exact ih (docId + 1) _ [] (docId + 1)
        (fun w hw => hdocs w (List.mem_cons_of_mem _ hw)) hdb2
        (invOK_nil _ _) (le_refl _)
    · rw [if_neg hmod]
      exact ih (docId + 1) db _ lo
        (fun w hw => hdocs w (List.mem_cons_of_mem _ hw))
        hdb hinv2 (by omega)

theorem storeListOK_mem {hi : Nat} {db : List (String × List TempTermIndexR)}
    (h : StoreListOK hi db) :
    ∀ e ∈ db, ((e.2.map TempTermIndexR.doc_id)).Nodup := by
  intro e he
  have hl : lookupKV db e.1 = some e.2 :=
    lookupKV_of_mem_nodup h.1 (by simpa using he)
  exact (h.2 e.1 e.2 hl).1

theorem lookupKV_insertA {K V : Type} [DecidableEq K]
    (m : List (K × V)) (k : K) (v : V) (k0 : K) :
    lookupKV (insertA m k v) k0 =
      if k0 = k then some v else lookupKV m k0 := by
  induction m with
  | nil =>
    by_cases h : k0 = k
    · subst h
      simp [insertA, lookupKV]
    · have hs : ¬k = k0 := Ne.symm h
      simp [insertA, lookupKV, h, hs]
  | cons e rest ih =>
    obtain ⟨k1, v1⟩ := e
    by_cases h1 : k1 = k
    · simp only [insertA, if_pos h1]
      by_cases h0 : k1 = k0
      · have hkk0 : k0 = k := h0.symm.trans h1
        simp [lookupKV, h0, hkk0]
      · have hk0k : ¬k0 = k := by
          intro hh
          exact h0 (h1.trans hh.symm)
        simp [lookupKV, h0, hk0k]
    · simp only [insertA, if_neg h1]
      by_cases h0 : k1 = k0
      · have hk0k : ¬k0 = k := by
          intro hh
          exact h1 (h0.trans hh)
        simp [lookupKV, h0, hk0k]
      · simp [lookupKV, h0, ih]

theorem insertA_keys_sub {K V : Type} [DecidableEq K]
    {m : List (K × V)} {k : K} {v : V} {k0 : K}
    (h : k0 ∈ (insertA m k v).map Prod.fst) :
    k0 ∈ m.map Prod.fst ∨ k0 = k := by
  induction m with
  | nil =>
    simp [insertA] at h
    exact Or.inr h
  | cons e rest ih =>
    obtain ⟨k1, v1⟩ := e
    by_cases h1 : k1 = k
    · simp only [insertA, if_pos h1, List.map_cons, List.mem_cons] at h
      rcases h with h | h
      · exact Or.inl (by simp [h])
      · exact Or.inl (by simp [h])
    · simp only [insertA, if_neg h1, List.map_cons, List.mem_cons] at h
      rcases h with h | h
      · exact Or.inl (by simp [h])
      · rcases ih h with h2 | h2
        · exact Or.inl (List.mem_cons_of_mem _ h2)
        · exact Or.inr h2

theorem calcGo_spec (n : Nat) (Q : List TempTermIndexR → Prop) :
    ∀ (entries : List (String × List TempTermIndexR)) (i : Nat)
      (temp fm : List (String × List TermIndexR)),
      (entries.map Prod.fst).Nodup →
      (∀ e ∈ entries, Q e.2) →
      (∀ k ∈ temp.map Prod.fst,
        k ∉ fm.map Prod.fst ∧ k ∉ entries.map Prod.fst) →
      (∀ k ∈ fm.map Prod.fst, k ∉ entries.map Prod.fst) →
      (∀ k l2, lookupKV temp k = some l2 → ∃ v, Q v ∧ l2 = scoreList v n) →
      (∀ k l2, lookupKV fm k = some l2 → ∃ v, Q v ∧ l2 = scoreList v n) →
      ∀ k l2, lookupKV (calcGo entries i n temp fm) k = some l2 →
        ∃ v, Q v ∧ l2 = scoreList v n := by
  intro entries
  induction entries with
  | nil =>
    intro i temp fm _ _ hd1 _ htemp hfm k l2 hl
    simp only [calcGo] at hl
    rw [lookupKV_extendL] at hl
    rcases hb : lookupKV fm k with _ | v
    · rw [hb] at hl
      exact htemp k l2 hl
    · rw [hb] at hl
      injection hl with hl
      have hkfm : k ∈ fm.map Prod.fst :=
        List.mem_map.mpr ⟨(k, v), lookupKV_mem hb, rfl⟩
      have htempk : lookupKV temp k = none := by
        apply lookupKV_eq_none.mpr
        intro hk
        exact (hd1 k hk).1 hkfm
      rw [htempk] at hl
      simp only [Option.getD_none, List.nil_append] at hl
      subst hl
      exact hfm k v hb
  | cons e rest ih =>
    obtain ⟨key, value⟩ := e
    intro i temp fm hek hent hd1 hd2 htemp hfm k l2 hl
    simp only [calcGo] at hl
    have hQval : Q value := hent (key, value) (List.mem_cons_self _ _)
    have hkey_not_rest : key ∉ rest.map Prod.fst := by
      simp only [List.map_cons, List.nodup_cons] at hek
      exact hek.1
    have hfm2 : ∀ k0 l0,
        lookupKV (insertA fm key (scoreList value n)) k0 = some l0 →
        ∃ v, Q v ∧ l0 = scoreList v n := by
      intro k0 l0 h0
      rw [lookupKV_insertA] at h0
      by_cases hk0 : k0 = key
      · rw [if_pos hk0] at h0
        injection h0 with h0
        exact ⟨value, hQval, h0.symm⟩
      · rw [if_neg hk0] at h0
        exact hfm k0 l0 h0
    have hd2' : ∀ k0 ∈ (insertA fm key (scoreList value n)).map Prod.fst,
        k0 ∉ rest.map Prod.fst := by
      intro k0 hk0
      rcases insertA_keys_sub hk0 with h | h
      · have := hd2 k0 h
        simp only [List.map_cons, List.mem_cons] at this
        tauto
      · subst h
        exact hkey_not_rest
    have hek' : (rest.map Prod.fst).Nodup := by
      simp only [List.map_cons, List.nodup_cons] at hek
      exact hek.2
    have hent' : ∀ e ∈ rest, Q e.2 :=
      fun e he => hent e (List.mem_cons_of_mem _ he)
    by_cases hmod : i % 10000 = 0
    · rw [if_pos hmod] at hl
      refine ih (i + 1) (extendL temp (insertA fm key (scoreList value n))) []
        hek' hent' ?_ (by simp) ?_ (by intro k0 l0 h0; simp [lookupKV] at h0)
        k l2 hl
      · intro k0 hk0
        refine ⟨by simp, ?_⟩
        rw [extendL_keys] at hk0
        rcases List.mem_append.mp hk0 with h | h
        · obtain ⟨p, hp, hpk⟩ := List.mem_map.mp h
          have hpm : p ∈ temp := List.mem_of_mem_filter hp
          have := (hd1 k0 (List.mem_map.mpr ⟨p, hpm, hpk⟩)).2
          simp only [List.map_cons, List.mem_cons] at this
          tauto
        · exact hd2' k0 h
      · intro k0 l0 h0
        rw [lookupKV_extendL] at h0
        rcases hb : lookupKV (insertA fm key (scoreList value n)) k0 with _ | v
        · rw [hb] at h0
          exact htemp k0 l0 h0
        · rw [hb] at h0
          injection h0 with h0
          have hkfm : k0 ∈ (insertA fm key (scoreList value n)).map Prod.fst :=
            List.mem_map.mpr ⟨(k0, v), lookupKV_mem hb, rfl⟩
          have htempk : lookupKV temp k0 = none := by
            apply lookupKV_eq_none.mpr
            intro hk
            rcases insertA_keys_sub hkfm with h | h
            · exact (hd1 k0 hk).1 h
            · subst h
              have := (hd1 k0 hk).2
              simp at this
          rw [htempk] at h0
          simp only [Option.getD_none, List.nil_append] at h0
          subst h0
          exact hfm2 k0 v hb
    · rw [if_neg hmod] at hl
      refine ih (i + 1) temp (insertA fm key (scoreList value n))
        hek' hent' ?_ hd2' htemp hfm2 k l2 hl
      intro k0 hk0
      obtain ⟨h1, h2⟩ := hd1 k0 hk0
      constructor
      · intro hmem
        rcases insertA_keys_sub hmem with h | h
        · exact h1 h
        · subst h
          simp at h2
      · simp only [List.map_cons, List.mem_cons] at h2
        tauto

/-- C9: posting-list uniqueness.  For every term of the scored index
produced by a complete build over documents with duplicate-free
`word_count` keys, the doc-ids of its posting list are pairwise
distinct: each document contributes one posting per term, each document
lands in exactly one flushed batch, and `extend` only concatenates
batches of disjoint doc-id ranges, which the rescoring pass preserves
posting-for-posting. -/
theorem scored_index_docids_unique (docs : List (List (String × Nat)))
    (n : Nat) (hdocs : ∀ wc ∈ docs, (wc.map Prod.fst).Nodup)
    (t : String) (l : List TermIndexR)
    (hl : lookupKV (calculateScores (buildIndex docs) n) t = some l) :
    (l.map TermIndexR.doc_id).Nodup := by
  have hstore : StoreListOK docs.length (buildIndex docs) := by
    have := buildGo_spec docs 0 [] [] 0 hdocs (storeListOK_nil 0)
      (invOK_nil 0 0) (le_refl 0)
    simpa [buildIndex] using this
  have hent : ∀ e ∈ buildIndex docs,
      ((e.2.map TempTermIndexR.doc_id)).Nodup := storeListOK_mem hstore
  obtain ⟨v, hQ, hlv⟩ :=
    calcGo_spec n (fun v => (v.map TempTermIndexR.doc_id).Nodup)
      (buildIndex docs) 0 [] [] hstore.1 hent (by simp) (by simp)
      (by intro k l2 h; simp [lookupKV] at h)
      (by intro k l2 h; simp [lookupKV] at h)
      t l hl
  subst hlv
  simpa [scoreList, List.map_map, Function.comp] using hQ

/-- Witness for C9: a one-document, one-term corpus whose scored posting
list holds the single doc-id 0. -/
theorem scored_index_docids_unique_witness :
    ((scoreList [⟨0, 1⟩] 1).map TermIndexR.doc_id).Nodup := by
  exact scored_index_docids_unique [[("w", 1)]] 1 (by simp) "w"
    (scoreList [⟨0, 1⟩] 1) rfl
